import Mathlib

/-!
# VideoParty: the room registry and the per-connection broadcast hub

A shallow embedding of the hub part of `videoparty.go`:

* `Chan` models a buffered Go channel (`make(chan []byte, 256)`), with the
  two runtime panics (send on a closed channel, close of a closed channel)
  as explicit faults;
* `Hub` is one `Room` together with the heap of `Client` values that point
  to it; a `Ptr` is the identity of a `*Client`;
* `broadcastMessage`, `getUsersList`, `broadcastUsers`, `handleMessage`,
  `disconnect` and the attaching tail of `websocketHandler` are translated
  statement by statement;
* the registry `rooms.m` is an association list keyed by room identifier;
* `generateRoomID` encodes six bytes of entropy with the URL-safe base64
  alphabet; `generateVideoEmbed` works on byte strings with
  `strings.Contains` and `strings.Split`;
* `readPump` runs over the results of its successive reads;
* the hub operations are given a second time with a log of their lock
  calls, their writes to `room.clients` and their channel sends and closes
  (`broadcastMessageLogged` and the like); `runLogged_forget` shows that they
  compute the same hub states.

Go ranges over a map in an unspecified order.  The key set of
`room.clients` is kept as a duplicate-free list and a range visits it in
list order.  The hub state a broadcast pass ends in does not depend on that
order (`broadcastLoop_perm`); the payload of a `users` envelope comes out in
list order, so it is determined here up to the order of its entries only.

The clock `time.Now().Unix()` and the entropy read by `rand.Read` are
explicit arguments.
-/

namespace VideoParty

/-! ## Channels -/

/-- The runtime panics the hub code can raise. -/
inductive Fault where
  | sendOnClosed
  | closeOfClosed
  | sliceOutOfRange
  | indexOutOfRange
  deriving DecidableEq, Repr

/-- A buffered Go channel: the undrained messages (oldest first), the
capacity it was made with, and whether `close` was called on it. -/
structure Chan (α : Type) where
  buf : List α
  cap : Nat
  closed : Bool
  deriving DecidableEq

/-- The channel `make(chan T, cap)`. -/
def Chan.make {α : Type} (cap : Nat) : Chan α :=
  { buf := [], cap := cap, closed := false }

/-- A channel is full when its buffer holds `cap` messages. -/
def Chan.full {α : Type} (ch : Chan α) : Bool :=
  decide (ch.cap ≤ ch.buf.length)

/-- The statement `select { case ch <- v: default: }`.  It panics on a closed
channel, enqueues when there is room (`some` of the new channel) and takes
the `default` branch (`none`) when the buffer is full. -/
def Chan.trySend {α : Type} (ch : Chan α) (v : α) : Except Fault (Option (Chan α)) :=
  if ch.closed then .error Fault.sendOnClosed
  else if ch.buf.length < ch.cap then .ok (some { ch with buf := ch.buf ++ [v] })
  else .ok none

/-- The statement `close(ch)`; closing twice panics. -/
def Chan.close {α : Type} (ch : Chan α) : Except Fault (Chan α) :=
  if ch.closed then .error Fault.closeOfClosed
  else .ok { ch with closed := true }

/-! ## Data model -/

/-- The identity of a `*Client`. -/
abbrev Ptr := Nat

/-- The `Data interface{}` field of a `Message`.  The hub never inspects a
decoded inbound payload, so its type `δ` is left open; the only payload the
server builds itself is the `[]string` of `getUsersList`. -/
inductive Data (δ : Type) where
  | absent
  | inbound (d : δ)
  | users (names : List String)
  deriving DecidableEq

/-- The struct `Message`.  `Typ` is the field `Type`; an empty `User` and an
absent `Data` are left out of the encoding (`omitempty`). -/
structure Message (δ : Type) where
  Typ : String
  User : String
  Data : Data δ
  Time : Int
  deriving DecidableEq

/-- The struct `Client` without its transport handle; `room` is the hub the
client lives in.  The queue carries the marshalled envelopes, kept here as
the envelopes themselves. -/
structure Client (δ : Type) where
  username : String
  send : Chan (Message δ)
  deriving DecidableEq

/-- The struct `Room`; `clients` is the key set of the map `clients`. -/
structure Room where
  ID : String
  Name : String
  VideoURL : String
  Owner : String
  CreatedAt : Int
  clients : List Ptr
  deriving DecidableEq

/-- One room with the clients that point to it: `heap` dereferences a
`*Client`, `next` is the next pointer the allocator hands out. -/
structure Hub (δ : Type) where
  room : Room
  heap : Ptr → Client δ
  next : Ptr

variable {δ : Type}

/-- The capacity of every outbound queue, `make(chan []byte, 256)`. -/
def sendCap : Nat := 256

/-- Assignment to `client.send` through the pointer `p`. -/
def Hub.setSend (h : Hub δ) (p : Ptr) (ch : Chan (Message δ)) : Hub δ :=
  { h with heap := fun q => if q = p then { h.heap p with send := ch } else h.heap q }

/-- The statement `delete(c.room.clients, p)`. -/
def Hub.delete (h : Hub δ) (p : Ptr) : Hub δ :=
  { h with room := { h.room with clients := h.room.clients.filter (fun q => decide (q ≠ p)) } }

/-- The statement `room.clients[p] = true`. -/
def Hub.insert (h : Hub δ) (p : Ptr) : Hub δ :=
  { h with room := { h.room with
      clients := if p ∈ h.room.clients then h.room.clients else h.room.clients ++ [p] } }

/-! ## The broadcast hub -/

/-- The body of the `for client := range c.room.clients` loop of
`broadcastMessage`, over the keys still to visit. -/
def broadcastLoop (c : Ptr) (data : Message δ) : List Ptr → Hub δ → Except Fault (Hub δ)
  | [], h => .ok h
  | p :: ps, h =>
    if p ≠ c then
      match (h.heap p).send.trySend data with
      | .error e => .error e
      | .ok (some ch) => broadcastLoop c data ps (h.setSend p ch)
      | .ok none =>
        match (h.heap p).send.close with
        | .error e => .error e
        | .ok ch => broadcastLoop c data ps ((h.setSend p ch).delete p)
    else broadcastLoop c data ps h

/-- The method `(c *Client) broadcastMessage(msg)`. -/
def broadcastMessage (h : Hub δ) (c : Ptr) (msg : Message δ) : Except Fault (Hub δ) :=
  broadcastLoop c msg h.room.clients h

/-- The method `(c *Client) getUsersList()`. -/
def getUsersList (h : Hub δ) (_c : Ptr) : List String :=
  h.room.clients.map (fun p => (h.heap p).username)

/-- The envelope `broadcastUsers` builds. -/
def usersMessage (h : Hub δ) (c : Ptr) (now : Int) : Message δ :=
  { Typ := "users", User := "", Data := Data.users (getUsersList h c), Time := now }

/-- The method `(c *Client) broadcastUsers()`. -/
def broadcastUsers (h : Hub δ) (c : Ptr) (now : Int) : Except Fault (Hub δ) :=
  broadcastMessage h c (usersMessage h c now)

/-- The method `(c *Client) disconnect()`: the guarded removal and close,
then (after `c.conn.Close()`, which the hub state does not see) the
unconditional `c.broadcastUsers()`. -/
def disconnect (h : Hub δ) (c : Ptr) (now : Int) : Except Fault (Hub δ) :=
  if c ∈ h.room.clients then
    let h1 := h.delete c
    match (h1.heap c).send.close with
    | .error e => .error e
    | .ok ch => broadcastUsers (h1.setSend c ch) c now
  else broadcastUsers h c now

/-- The method `(c *Client) handleMessage(msg)`. -/
def handleMessage (h : Hub δ) (c : Ptr) (msg : Message δ) (now : Int) : Except Fault (Hub δ) :=
  if msg.Typ = "chat" then
    broadcastMessage h c
      { Typ := "chat", User := (h.heap c).username, Data := msg.Data, Time := now }
  else if msg.Typ = "play" then
    broadcastMessage h c
      { Typ := "play", User := (h.heap c).username, Data := Data.absent, Time := now }
  else if msg.Typ = "pause" then
    broadcastMessage h c
      { Typ := "pause", User := (h.heap c).username, Data := Data.absent, Time := now }
  else if msg.Typ = "seek" then
    broadcastMessage h c
      { Typ := "seek", User := (h.heap c).username, Data := msg.Data, Time := now }
  else if msg.Typ = "state_update" then
    broadcastMessage h c
      { Typ := "state", User := "", Data := msg.Data, Time := now }
  else if msg.Typ = "join" then broadcastUsers h c now
  else if msg.Typ = "leave" then disconnect h c now
  else .ok h

/-- The allocation and registration in `websocketHandler` once the room is
found and the upgrade succeeded: a new client with an empty queue of
capacity 256 is inserted into `room.clients`. -/
def register (h : Hub δ) (username : String) : Hub δ :=
  let client : Client δ := { username := username, send := Chan.make sendCap }
  let p := h.next
  let h1 : Hub δ :=
    { h with heap := fun q => if q = p then client else h.heap q, next := p + 1 }
  h1.insert p

/-- The tail of `websocketHandler`: register the new client, then
`client.broadcastUsers()`. -/
def attach (h : Hub δ) (username : String) (now : Int) : Except Fault (Hub δ) :=
  broadcastUsers (register h username) h.next now

/-- A run of `websocketHandler` calls, one per `(username, clock)` pair, that
also records the `users` envelope each call builds. -/
def attachAll : Hub δ → List (String × Int) → Except Fault (Hub δ × List (Message δ))
  | h, [] => .ok (h, [])
  | h, (u, now) :: rest =>
    match attach h u now with
    | .error e => .error e
    | .ok h1 =>
      match attachAll h1 rest with
      | .error e => .error e
      | .ok (h2, envs) => .ok (h2, usersMessage (register h u) h.next now :: envs)

/-- One receive `<-c.send` of the send loop `writePump` on a queue that
holds a message: the oldest message leaves the buffer. -/
def recv (h : Hub δ) (p : Ptr) : Hub δ :=
  h.setSend p { (h.heap p).send with buf := (h.heap p).send.buf.tail }

/-- The operations that act on a hub. -/
inductive Op (δ : Type) where
  | attach (username : String) (now : Int)
  | handleMessage (c : Ptr) (msg : Message δ) (now : Int)
  | broadcastMessage (c : Ptr) (msg : Message δ)
  | broadcastUsers (c : Ptr) (now : Int)
  | disconnect (c : Ptr) (now : Int)
  | recv (p : Ptr)

/-- One operation. -/
def step (h : Hub δ) : Op δ → Except Fault (Hub δ)
  | .attach u now => attach h u now
  | .handleMessage c msg now => handleMessage h c msg now
  | .broadcastMessage c msg => broadcastMessage h c msg
  | .broadcastUsers c now => broadcastUsers h c now
  | .disconnect c now => disconnect h c now
  | .recv p => .ok (recv h p)

/-- A sequential run of operations; it stops at the first fault. -/
def run : Hub δ → List (Op δ) → Except Fault (Hub δ)
  | h, [] => .ok h
  | h, op :: ops =>
    match step h op with
    | .error e => .error e
    | .ok h1 => run h1 ops

/-- A hub around a room nobody has joined yet. -/
def Hub.fresh (r : Room) (dflt : Client δ) : Hub δ :=
  { room := { r with clients := [] }, heap := fun _ => dflt, next := 0 }

/-- The representation invariant of a hub state: the key list has no
duplicates, every member was allocated, and every member's queue is open,
has capacity 256 and holds at most 256 messages. -/
def Hub.WF (h : Hub δ) : Prop :=
  h.room.clients.Nodup ∧
  ∀ p ∈ h.room.clients, p < h.next ∧ (h.heap p).send.closed = false ∧
    (h.heap p).send.cap = sendCap ∧ (h.heap p).send.buf.length ≤ sendCap

instance (h : Hub δ) : Decidable h.WF := by
  unfold Hub.WF; exact inferInstance

/-! ## What one broadcast pass does -/

/-- The effect of one loop iteration on a receiver whose queue is open:
the envelope is appended when there is room, else the queue is closed. -/
def delivered (data : Message δ) (cl : Client δ) : Client δ :=
  if cl.send.buf.length < cl.send.cap then
    { cl with send := { cl.send with buf := cl.send.buf ++ [data] } }
  else { cl with send := { cl.send with closed := true } }

/-- The hub state a broadcast pass over the keys `ps` ends in, when every
receiver it visits has an open queue. -/
def broadcastResult (h : Hub δ) (c : Ptr) (data : Message δ) (ps : List Ptr) : Hub δ :=
  { room := { h.room with
      clients := h.room.clients.filter
        (fun q => !(decide (q ∈ ps) && decide (q ≠ c) && (h.heap q).send.full)) },
    heap := fun q => if q ∈ ps ∧ q ≠ c then delivered data (h.heap q) else h.heap q,
    next := h.next }

/-- The relay table of the specification, row by row: the outbound envelope
for an inbound envelope of the given kind and payload, relayed for the
connection named `u` at clock reading `now`. -/
def relayTable (u : String) (kind : String) (payload : Data δ) (now : Int) :
    Option (Message δ) :=
  if kind = "chat" then some { Typ := "chat", User := u, Data := payload, Time := now }
  else if kind = "play" then some { Typ := "play", User := u, Data := Data.absent, Time := now }
  else if kind = "pause" then some { Typ := "pause", User := u, Data := Data.absent, Time := now }
  else if kind = "seek" then some { Typ := "seek", User := u, Data := payload, Time := now }
  else if kind = "state_update" then
    some { Typ := "state", User := "", Data := payload, Time := now }
  else none

/-! ## Room identifiers -/

/-- The alphabet of `base64.URLEncoding`. -/
def encodeURL : List Char :=
  "ABCDEFGHIJKLMNOPQRSTUVWXYZabcdefghijklmnopqrstuvwxyz0123456789-_".toList

/-- The character `enc.encode[i]`. -/
def encodeChar (i : Nat) : Char := encodeURL.getD i 'A'

/-- The function `base64.URLEncoding.EncodeToString` on a byte sequence:
four characters per three bytes, the last group padded with `=`. -/
def encodeToString : List Nat → List Char
  | a :: b :: c :: rest =>
    let val := a * 65536 + b * 256 + c
    encodeChar (val / 262144 % 64) :: encodeChar (val / 4096 % 64) ::
      encodeChar (val / 64 % 64) :: encodeChar (val % 64) :: encodeToString rest
  | [a, b] =>
    let val := a * 65536 + b * 256
    [encodeChar (val / 262144 % 64), encodeChar (val / 4096 % 64),
      encodeChar (val / 64 % 64), '=']
  | [a] =>
    let val := a * 65536
    [encodeChar (val / 262144 % 64), encodeChar (val / 4096 % 64), '=', '=']
  | [] => []

/-- The slice expression `s[:n]` on a string of one-byte characters; it
panics when `n` exceeds the length. -/
def sliceTo (s : String) (n : Nat) : Except Fault String :=
  if n ≤ s.data.length then .ok (String.mk (s.data.take n)) else .error Fault.sliceOutOfRange

/-- The function `generateRoomID`; `rnd i` is the `i`-th byte `rand.Read`
stores into the six-byte buffer. -/
def generateRoomID (rnd : Nat → Nat) : Except Fault String :=
  let b := (List.range 6).map (fun i => rnd i % 256)
  sliceTo (String.mk (encodeToString b)) 8

/-! ## The registry -/

/-- The map `rooms.m`, as an association list with one entry per key. -/
abbrev Registry := List (String × Room)

/-- The comma-ok read `rooms.m[roomID]`. -/
def Registry.lookup : Registry → String → Option Room
  | [], _ => none
  | (k, r) :: m, roomID => if k = roomID then some r else Registry.lookup m roomID

/-- The assignment `rooms.m[roomID] = room`. -/
def Registry.store : Registry → String → Room → Registry
  | [], roomID, room => [(roomID, room)]
  | (k, r) :: m, roomID, room =>
    if k = roomID then (roomID, room) :: m else (k, r) :: Registry.store m roomID room

/-- The form a request to `/create-room` carries. -/
structure CreateRequest where
  Method : String
  videoUrl : String
  roomName : String
  username : String
  deriving DecidableEq

/-- What a handler answers with. -/
inductive Response where
  | error (text : String) (status : Nat)
  | redirect (location : String) (status : Nat)
  | notFound
  | upgrade (room : Room) (username : String)
  deriving DecidableEq

/-- The function `createRoomHandler`. -/
def createRoomHandler (m : Registry) (r : CreateRequest) (rnd : Nat → Nat) (now : Int) :
    Except Fault (Registry × Response) :=
  if r.Method ≠ "POST" then .ok (m, Response.error "Method not allowed" 405)
  else if r.videoUrl = "" ∨ r.username = "" then
    .ok (m, Response.redirect "/?error=Video+URL+and+username+are+required" 303)
  else
    match generateRoomID rnd with
    | .error e => .error e
    | .ok roomID =>
      match (if r.roomName = "" then
          match sliceTo roomID 4 with
          | .error e => .error e
          | .ok short => .ok ("Room " ++ short)
        else (.ok r.roomName : Except Fault String)) with
      | .error e => .error e
      | .ok roomName =>
        let room : Room :=
          { ID := roomID, Name := roomName, VideoURL := r.videoUrl, Owner := r.username,
            CreatedAt := now, clients := [] }
        .ok (m.store roomID room,
          Response.redirect ("/room/" ++ roomID ++ "?username=" ++ r.username) 303)

/-- The function `websocketHandler` up to the upgrade: `pathParts` is
`strings.Split(r.URL.Path, "/")` and `username` the query parameter.  The
answer `upgrade` stands for the handshake with the room found. -/
def websocketHandler (m : Registry) (pathParts : List String) (username : String)
    (rnd : Nat → Nat) : Except Fault (Registry × Response) :=
  if pathParts.length < 3 then .ok (m, Response.notFound)
  else
    let roomID := pathParts.getD 2 ""
    match (if username = "" then
        match generateRoomID rnd with
        | .error e => .error e
        | .ok g =>
          match sliceTo g 4 with
          | .error e => .error e
          | .ok short => .ok ("Guest_" ++ short)
      else (.ok username : Except Fault String)) with
    | .error e => .error e
    | .ok username =>
      match m.lookup roomID with
      | none => .ok (m, Response.notFound)
      | some room => .ok (m, Response.upgrade room username)

/-- The hub state after the guarded block of `disconnect` ran for a member
`c` whose queue was open: `c` is deleted and its queue closed. -/
def detached (h : Hub δ) (c : Ptr) : Hub δ :=
  (h.delete c).setSend c { (h.heap c).send with closed := true }

/-- The membership set a run ends with, when it returns. -/
def membersOf (x : Except Fault (Hub δ)) : Option (List Ptr) :=
  x.toOption.map (fun h => h.room.clients)

/-- The outbound queue of `p` a run ends with, when it returns. -/
def queueOf (x : Except Fault (Hub δ)) (p : Ptr) : Option (Chan (Message δ)) :=
  x.toOption.map (fun h => (h.heap p).send)

/-- The envelope `broadcastUsers` builds for the member names `names`. -/
def usersEnvelope (names : List String) (now : Int) : Message δ :=
  { Typ := "users", User := "", Data := Data.users names, Time := now }

/-- The display name of `p` a run ends with, when it returns. -/
def nameOf (x : Except Fault (Hub δ)) (p : Ptr) : Option String :=
  x.toOption.map (fun h => (h.heap p).username)

/-- The names a `users` envelope carries (empty for any other payload). -/
def payloadOf (m : Message δ) : List String :=
  match m.Data with
  | Data.users names => names
  | _ => []

/-- The growing membership announcements of the specification: after the
connections named `pre` are attached, each further attach `(u, now)` is
announced with the names attached so far followed by `u`. -/
def announcements (pre : List String) : List (String × Int) → List (Message δ)
  | [] => []
  | (u, now) :: rest => usersEnvelope (pre ++ [u]) now :: announcements (pre ++ [u]) rest

/-- The hub state reached by attaching the connections named `pre`, in that
order, to a fresh room while nothing is drained and nobody is evicted:
pointer `i` is the `i`-th connection and its queue holds the announcements
of the attaches after its own. -/
def Seated (h : Hub δ) (pre : List String) : Prop :=
  h.WF ∧ h.room.clients = List.range pre.length ∧ h.next = pre.length ∧
  h.room.clients.map (fun p => (h.heap p).username) = pre ∧
  ∀ i, i < pre.length → (h.heap i).send.buf.length + i + 1 = pre.length

/-- The length of the payload of the last envelope a run of attaches
built, when the run returns. -/
def lastPayloadLength (x : Except Fault (Hub δ × List (Message δ))) : Option Nat :=
  x.toOption.bind (fun r => r.2.getLast?.map (fun m => (payloadOf m).length))

/-! ## Sample states -/

/-- A room right after `createRoomHandler` made it for owner Alice. -/
def lobby : Hub String :=
  Hub.fresh
    { ID := "BSpPdJm-", Name := "Room BSpP", VideoURL := "v.mp4", Owner := "Alice",
      CreatedAt := 0, clients := [] }
    { username := "", send := Chan.make 0 }

/-- The inbound envelope the page script sends when its socket opens. -/
def joinOf (u : String) : Message String :=
  { Typ := "join", User := u, Data := Data.absent, Time := 0 }


/-- A room with Alice (pointer 0) and Bob (pointer 1), both queues empty. -/
def aliceBob : Hub String :=
  { room := { ID := "BSpPdJm-", Name := "Room BSpP", VideoURL := "v.mp4", Owner := "Alice",
              CreatedAt := 0, clients := [0, 1] },
    heap := fun p =>
      if p = 0 then { username := "Alice", send := Chan.make sendCap }
      else { username := "Bob", send := Chan.make sendCap },
    next := 2 }

/-- The room of `aliceBob` with numeric payloads, for `seek` envelopes. -/
def aliceBobSeek : Hub ℚ :=
  { room := aliceBob.room,
    heap := fun p =>
      if p = 0 then { username := "Alice", send := Chan.make sendCap }
      else { username := "Bob", send := Chan.make sendCap },
    next := 2 }

/-- An inbound `seek` envelope to position 125.5 whose own `user` and `time`
fields claim another sender and another instant. -/
def seekInbound : Message ℚ :=
  { Typ := "seek", User := "Mallory", Data := Data.inbound 125.5, Time := 99 }

/-- The envelope the sample states use to fill a queue. -/
def filler : Message String :=
  { Typ := "chat", User := "Alice", Data := Data.inbound "x", Time := 0 }

/-- The room of `aliceBob` once Bob's queue holds 256 undrained envelopes. -/
def bobFull : Hub String :=
  { room := aliceBob.room,
    heap := fun p =>
      if p = 0 then { username := "Alice", send := Chan.make sendCap }
      else { username := "Bob",
             send := { buf := List.replicate 256 filler, cap := sendCap, closed := false } },
    next := 2 }

/-- A run from the fresh room: Alice, Bob and Carol attach, Carol is
disconnected, then Alice sends 254 chat envelopes that nobody drains.  Bob's
queue then holds 2 + 254 = 256 envelopes. -/
def crowded : List (Op String) :=
  [Op.attach "Alice" 1, Op.attach "Bob" 2, Op.attach "Carol" 3, Op.disconnect 2 4] ++
    List.replicate 254 (Op.handleMessage 0 filler 5)

set_option maxRecDepth 1000000

/-- A run of 259 attaches to the fresh room: 257 guests, then Bob, then
Carol. -/
def manyGuests : List (String × Int) :=
  List.replicate 257 ("Guest", 0) ++ [("Bob", 1), ("Carol", 2)]

/-- A registry holding one room, and a request that creates a second one
with an empty room name. -/
def oneRoom : Registry :=
  [("AAAAAAAA", { ID := "AAAAAAAA", Name := "First", VideoURL := "a.mp4", Owner := "Zed",
                  CreatedAt := 0, clients := [] })]

/-- A well-formed request to `/create-room` that leaves the room name
empty. -/
def aliceCreates : CreateRequest :=
  { Method := "POST", videoUrl := "v.mp4", roomName := "", username := "Alice" }

/-- The entropy that yields the bytes 5, 42, 79, 116, 153, 190. -/
def sampleEntropy (i : Nat) : Nat := i * 37 + 5

/-! ## Definitions for the identifier claims -/

/-- The URL-safe characters: `A`-`Z`, `a`-`z`, `0`-`9`, `-` and `_`. -/
def urlSafe (ch : Char) : Bool :=
  ('A' ≤ ch && ch ≤ 'Z') || ('a' ≤ ch && ch ≤ 'z') || ('0' ≤ ch && ch ≤ '9') ||
    ch == '-' || ch == '_'

/-- The six bytes `rand.Read` stores into the buffer of `generateRoomID`. -/
def entropyBytes (rnd : Nat → Nat) : List Nat :=
  (List.range 6).map (fun i => rnd i % 256)

/-- The index of a character in the alphabet `encodeURL` (64 when it is not
in it). -/
def decodeChar (ch : Char) : Nat := encodeURL.indexOf ch

/-- The room `createRoomHandler` builds for the request `r` under the
identifier `roomID` at clock reading `now`. -/
def createdRoom (r : CreateRequest) (roomID : String) (now : Int) : Room :=
  { ID := roomID,
    Name := if r.roomName = "" then "Room " ++ String.mk (roomID.data.take 4) else r.roomName,
    VideoURL := r.videoUrl, Owner := r.username, CreatedAt := now, clients := [] }

/-- A second request to `/create-room`, by Bob. -/
def bobCreates : CreateRequest :=
  { Method := "POST", videoUrl := "w.webm", roomName := "Bob's", username := "Bob" }

/-- An entropy source that differs from `sampleEntropy` in the last byte
only. -/
def otherEntropy (i : Nat) : Nat := if i = 5 then 191 else i * 37 + 5

/-! ## Timing constants -/

/-- The constant `time.Second`, in nanoseconds (`time.Duration` is an
`int64` count of nanoseconds). -/
def Second : Int := 1000000000

/-- The constant `MaxMessageSize`. -/
def MaxMessageSize : Int := 1024

/-- The constant `PongWait`, the read deadline of `readPump`. -/
def PongWait : Int := 60 * Second

/-- The constant `PingPeriod`, the ticker interval of `writePump`. -/
def PingPeriod : Int := (PongWait * 9) / 10

/-- The constant `WriteWait`. -/
def WriteWait : Int := 10 * Second

/-- The instant `time.Now().Add(PongWait)` that `readPump` sets as read
deadline, for the clock reading `now` in nanoseconds. -/
def readDeadline (now : Int) : Int := now + PongWait

/-- The instant of the first tick of `time.NewTicker(PingPeriod)` started at
the clock reading `now`. -/
def firstPing (now : Int) : Int := now + PingPeriod

/-! ## The receive loop -/

/-- What one call `c.conn.ReadMessage()` yields: an error, or the bytes of a
frame. -/
inductive ReadResult (β : Type) where
  | err
  | message (frame : β)
  deriving DecidableEq

/-- The method `(c *Client) readPump()` over the results of its successive
`ReadMessage` calls, each with the clock reading at that moment;
`unmarshal` is `json.Unmarshal` into a `Message`.  A read error leaves the
loop and runs the deferred `c.disconnect()`; a frame that does not decode is
logged and skipped; when the results run out the loop is waiting for the
next frame. -/
def readPump {β : Type} (unmarshal : β → Option (Message δ)) (c : Ptr) :
    Hub δ → List (ReadResult β × Int) → Except Fault (Hub δ)
  | h, [] => .ok h
  | h, (ReadResult.err, now) :: _ => disconnect h c now
  | h, (ReadResult.message frame, now) :: rest =>
    match unmarshal frame with
    | none => readPump unmarshal c h rest
    | some msg =>
      match handleMessage h c msg now with
      | .error e => .error e
      | .ok h1 => readPump unmarshal c h1 rest

/-- A stand-in decoder for the sample runs: a frame decodes when it is one
of the kind names, to an envelope of that kind without payload. -/
def kindDecoder (frame : String) : Option (Message String) :=
  if frame ∈ ["chat", "play", "pause", "seek", "state_update", "join", "leave"] then
    some { Typ := frame, User := "", Data := Data.absent, Time := 0 }
  else none

/-! ## The video embed -/

/-- A Go string as its bytes. -/
abbrev Bytes := List Nat

/-- The bytes of a string literal of one-byte characters. -/
def ascii (s : String) : Bytes := s.data.map Char.toNat

/-- The function `strings.Contains(s, substr)`. -/
def Contains : Bytes → Bytes → Bool
  | [], substr => substr.isEmpty
  | a :: s, substr => substr.isPrefixOf (a :: s) || Contains s substr

/-- The scan of `strings.Split` for a non-empty separator: `skip` bytes of a
separator just matched are still to be passed over, `cur` holds the bytes of
the current part in reverse. -/
def splitGo (sep : Bytes) : Nat → Bytes → Bytes → List Bytes
  | _, cur, [] => [cur.reverse]
  | skip + 1, cur, _ :: s => splitGo sep skip cur s
  | 0, cur, a :: s =>
    if sep.isPrefixOf (a :: s) then cur.reverse :: splitGo sep (sep.length - 1) [] s
    else splitGo sep 0 (a :: cur) s

/-- The function `strings.Split(s, sep)` for a non-empty `sep`: the parts of
`s` between the successive non-overlapping occurrences of `sep`. -/
def Split (s sep : Bytes) : List Bytes := splitGo sep 0 [] s

/-- The index expression `parts[i]`; it panics when `i` is out of range. -/
def indexAt (parts : List Bytes) (i : Nat) : Except Fault Bytes :=
  match parts[i]? with
  | some part => .ok part
  | none => .error Fault.indexOutOfRange

/-- The statement `if len(videoID) > 11 { videoID = videoID[:11] }`. -/
def clip11 (videoID : Bytes) : Bytes :=
  if videoID.length > 11 then videoID.take 11 else videoID

/-- The markup `generateVideoEmbed` returns, by its template and the value
substituted for `%s`: the YouTube `iframe` with a video id, the `video`
element with a source URL, or the link that opens the URL in a new tab. -/
inductive Embed where
  | youtube (videoID : Bytes)
  | video (src : Bytes)
  | external (href : Bytes)
  deriving DecidableEq

/-- The value of `videoID` after the `if ... else if` that extracts it in
`generateVideoEmbed` (the zero value when neither branch is taken). -/
def videoIDOf (videoURL : Bytes) : Except Fault Bytes :=
  if Contains videoURL (ascii "v=") then
    match indexAt (Split videoURL (ascii "v=")) 1 with
    | .error e => .error e
    | .ok videoID => .ok (clip11 videoID)
  else if Contains videoURL (ascii "youtu.be/") then
    match indexAt (Split videoURL (ascii "youtu.be/")) 1 with
    | .error e => .error e
    | .ok videoID => .ok (clip11 videoID)
  else .ok []

/-- The tail of `generateVideoEmbed`: the direct-file branch and the
external-link branch. -/
def directOrExternal (videoURL : Bytes) : Embed :=
  if Contains videoURL (ascii ".mp4") || Contains videoURL (ascii ".webm") ||
      Contains videoURL (ascii ".mov") || Contains videoURL (ascii ".avi") then
    Embed.video videoURL
  else Embed.external videoURL

/-- The function `generateVideoEmbed`. -/
def generateVideoEmbed (videoURL : Bytes) : Except Fault Embed :=
  if Contains videoURL (ascii "youtube.com") || Contains videoURL (ascii "youtu.be") then
    match videoIDOf videoURL with
    | .error e => .error e
    | .ok videoID =>
      if videoID ≠ [] then .ok (Embed.youtube videoID)
      else .ok (directOrExternal videoURL)
  else .ok (directOrExternal videoURL)

/-! ## The hub operations with their lock and channel events

The same operations once more, each now also appending to a log the calls
it makes on the room's lock (`c.room.mu`), its writes to `room.clients` and
its sends and closes on the clients' queues, in program order. -/

/-- One logged action of a hub operation. -/
inductive Event where
  | rlock
  | runlock
  | lock
  | unlock
  | insert (p : Ptr)
  | delete (p : Ptr)
  | send (p : Ptr)
  | close (p : Ptr)
  deriving DecidableEq

/-- The mode in which the operating goroutine holds the room's lock. -/
inductive LockMode where
  | free
  | shared
  | exclusive
  deriving DecidableEq

/-- The lock discipline of the specification, checked along a log: every
write to the connection set (`insert`, `delete`) happens while the lock is
held in exclusive mode. -/
def disciplined : LockMode → List Event → Bool
  | _, [] => true
  | _, Event.rlock :: tr => disciplined LockMode.shared tr
  | _, Event.runlock :: tr => disciplined LockMode.free tr
  | _, Event.lock :: tr => disciplined LockMode.exclusive tr
  | _, Event.unlock :: tr => disciplined LockMode.free tr
  | m, Event.insert _ :: tr => decide (m = LockMode.exclusive) && disciplined m tr
  | m, Event.delete _ :: tr => decide (m = LockMode.exclusive) && disciplined m tr
  | m, Event.send _ :: tr => disciplined m tr
  | m, Event.close _ :: tr => disciplined m tr

/-- The loop of `broadcastMessage`, logging each send, close and delete. -/
def broadcastLoopLogged (c : Ptr) (data : Message δ) :
    List Ptr → Hub δ → List Event → Except Fault (Hub δ × List Event)
  | [], h, tr => .ok (h, tr)
  | p :: ps, h, tr =>
    if p ≠ c then
      match (h.heap p).send.trySend data with
      | .error e => .error e
      | .ok (some ch) => broadcastLoopLogged c data ps (h.setSend p ch) (tr ++ [Event.send p])
      | .ok none =>
        match (h.heap p).send.close with
        | .error e => .error e
        | .ok ch =>
          broadcastLoopLogged c data ps ((h.setSend p ch).delete p)
            (tr ++ [Event.close p, Event.delete p])
    else broadcastLoopLogged c data ps h tr

/-- The method `broadcastMessage`: `RLock`, the loop, the deferred
`RUnlock`. -/
def broadcastMessageLogged (h : Hub δ) (tr : List Event) (c : Ptr) (msg : Message δ) :
    Except Fault (Hub δ × List Event) :=
  match broadcastLoopLogged c msg h.room.clients h (tr ++ [Event.rlock]) with
  | .error e => .error e
  | .ok (h1, tr1) => .ok (h1, tr1 ++ [Event.runlock])

/-- The method `broadcastUsers`: `getUsersList` (`RLock`, the read, the
deferred `RUnlock`), then `broadcastMessage`. -/
def broadcastUsersLogged (h : Hub δ) (tr : List Event) (c : Ptr) (now : Int) :
    Except Fault (Hub δ × List Event) :=
  broadcastMessageLogged h (tr ++ [Event.rlock, Event.runlock]) c (usersMessage h c now)

/-- The method `disconnect`: `Lock`, the guarded delete and close, `Unlock`,
then `broadcastUsers`. -/
def disconnectLogged (h : Hub δ) (tr : List Event) (c : Ptr) (now : Int) :
    Except Fault (Hub δ × List Event) :=
  if c ∈ h.room.clients then
    let h1 := h.delete c
    match (h1.heap c).send.close with
    | .error e => .error e
    | .ok ch =>
      broadcastUsersLogged (h1.setSend c ch)
        (tr ++ [Event.lock, Event.delete c, Event.close c, Event.unlock]) c now
  else broadcastUsersLogged h (tr ++ [Event.lock, Event.unlock]) c now

/-- The method `handleMessage`. -/
def handleMessageLogged (h : Hub δ) (tr : List Event) (c : Ptr) (msg : Message δ) (now : Int) :
    Except Fault (Hub δ × List Event) :=
  if msg.Typ = "chat" then
    broadcastMessageLogged h tr c
      { Typ := "chat", User := (h.heap c).username, Data := msg.Data, Time := now }
  else if msg.Typ = "play" then
    broadcastMessageLogged h tr c
      { Typ := "play", User := (h.heap c).username, Data := Data.absent, Time := now }
  else if msg.Typ = "pause" then
    broadcastMessageLogged h tr c
      { Typ := "pause", User := (h.heap c).username, Data := Data.absent, Time := now }
  else if msg.Typ = "seek" then
    broadcastMessageLogged h tr c
      { Typ := "seek", User := (h.heap c).username, Data := msg.Data, Time := now }
  else if msg.Typ = "state_update" then
    broadcastMessageLogged h tr c
      { Typ := "state", User := "", Data := msg.Data, Time := now }
  else if msg.Typ = "join" then broadcastUsersLogged h tr c now
  else if msg.Typ = "leave" then disconnectLogged h tr c now
  else .ok (h, tr)

/-- The tail of `websocketHandler`: `Lock`, the insert, `Unlock`, then
`broadcastUsers`. -/
def attachLogged (h : Hub δ) (tr : List Event) (username : String) (now : Int) :
    Except Fault (Hub δ × List Event) :=
  broadcastUsersLogged (register h username)
    (tr ++ [Event.lock, Event.insert h.next, Event.unlock]) h.next now

/-- One operation, logged. -/
def stepLogged (h : Hub δ) (tr : List Event) : Op δ → Except Fault (Hub δ × List Event)
  | .attach u now => attachLogged h tr u now
  | .handleMessage c msg now => handleMessageLogged h tr c msg now
  | .broadcastMessage c msg => broadcastMessageLogged h tr c msg
  | .broadcastUsers c now => broadcastUsersLogged h tr c now
  | .disconnect c now => disconnectLogged h tr c now
  | .recv p => .ok (recv h p, tr)

/-- A sequential run of operations, logged. -/
def runLogged : Hub δ → List Event → List (Op δ) → Except Fault (Hub δ × List Event)
  | h, tr, [] => .ok (h, tr)
  | h, tr, op :: ops =>
    match stepLogged h tr op with
    | .error e => .error e
    | .ok (h1, tr1) => runLogged h1 tr1 ops

/-- The events of a broadcast pass by `c` over the keys `ps`, read off the
hub state `h` before the pass: a full queue is closed and its client
deleted, any other receiver is sent to. -/
def broadcastEvents (h : Hub δ) (c : Ptr) : List Ptr → List Event
  | [] => []
  | p :: ps =>
    (if p = c then []
      else if (h.heap p).send.full then [Event.close p, Event.delete p]
      else [Event.send p]) ++ broadcastEvents h c ps

/-- The log a run ends with, when it returns. -/
def logOf (x : Except Fault (Hub δ × List Event)) : Option (List Event) :=
  x.toOption.map (fun r => r.2)

/-- The hub state of a logged result, without the log. -/
def forget (x : Except Fault (Hub δ × List Event)) : Except Fault (Hub δ) :=
  match x with
  | .error e => .error e
  | .ok r => .ok r.1

/-- The ledger of queue closes that a reachable hub state keeps with its
log: the state is well formed; no member's queue was ever closed; every
allocated connection that is no longer a member has a closed queue, closed
once; nothing was closed for a pointer not yet allocated; and the
connections inserted so far, once each, are the allocated ones. -/
def Audit (h : Hub δ) (tr : List Event) : Prop :=
  h.WF ∧
  ∀ p : Ptr,
    (p ∈ h.room.clients → tr.count (Event.close p) = 0) ∧
    (p ∉ h.room.clients → p < h.next →
      (h.heap p).send.closed = true ∧ tr.count (Event.close p) = 1) ∧
    (h.next ≤ p → tr.count (Event.close p) = 0) ∧
    tr.count (Event.insert p) = if p < h.next then 1 else 0

/-! ## Lemmas on one broadcast pass -/

theorem Hub.ext_fields {h1 h2 : Hub δ} (hr : h1.room = h2.room)
    (hh : ∀ q, h1.heap q = h2.heap q) (hn : h1.next = h2.next) : h1 = h2 := by
  obtain ⟨r1, f1, n1⟩ := h1
  obtain ⟨r2, f2, n2⟩ := h2
  have hf : f1 = f2 := funext hh
  simp only at hr hn
  subst hr; subst hn; subst hf
  rfl

theorem broadcastLoop_ok (c : Ptr) (data : Message δ) :
    ∀ (ps : List Ptr) (h : Hub δ), ps.Nodup →
      (∀ p ∈ ps, p ≠ c → (h.heap p).send.closed = false) →
      broadcastLoop c data ps h = .ok (broadcastResult h c data ps) := by
  intro ps
  induction ps with
  | nil =>
    intro h _ _
    simp only [broadcastLoop]
    congr 1
    apply Hub.ext_fields
    · simp [broadcastResult]
    · intro q; simp [broadcastResult]
    · rfl
  | cons p ps ih =>
    intro h hnd hopen
    have hpn : p ∉ ps := (List.nodup_cons.mp hnd).1
    have hnd2 : ps.Nodup := (List.nodup_cons.mp hnd).2
    by_cases hpc : p = c
    · subst hpc
      simp only [broadcastLoop, ne_eq, not_true_eq_false, if_false]
      rw [ih h hnd2 (fun q hq hne => hopen q (List.mem_cons_of_mem _ hq) hne)]
      congr 1
      apply Hub.ext_fields
      · simp only [broadcastResult]
        congr 1
        apply List.filter_congr
        intro q _
        by_cases hq : q = p
        · subst hq; simp
        · simp [hq]
      · intro q
        simp only [broadcastResult]
        by_cases hq : q = p
        · subst hq; simp
        · simp [hq]
      · rfl
    · have hcl : (h.heap p).send.closed = false := hopen p (List.mem_cons_self _ _) hpc
      simp only [broadcastLoop, ne_eq, hpc, not_false_eq_true, if_true, Chan.trySend, hcl]
      by_cases hroom : (h.heap p).send.buf.length < (h.heap p).send.cap
      · simp only [hroom, if_true, Bool.false_eq_true, if_false]
        rw [ih _ hnd2]
        · congr 1
          apply Hub.ext_fields
          · simp only [broadcastResult, Hub.setSend]
            congr 1
            apply List.filter_congr
            intro q _
            by_cases hq : q = p
            · subst hq
              simp [hpn, Chan.full, hroom, hcl]
            · simp [hq]
          · intro q
            simp only [broadcastResult, Hub.setSend]
            by_cases hq : q = p
            · subst hq
              simp [hpn, hpc, delivered, hroom, hcl]
            · simp [hq]
          · rfl
        · intro q hq hne
          have hqp : q ≠ p := fun e => hpn (e ▸ hq)
          simp only [Hub.setSend, hqp, if_false]
          exact hopen q (List.mem_cons_of_mem _ hq) hne
      · simp only [hroom, if_false, Bool.false_eq_true, Chan.close, hcl]
        rw [ih _ hnd2]
        · congr 1
          apply Hub.ext_fields
          · simp only [broadcastResult, Hub.setSend, Hub.delete, List.filter_filter]
            congr 1
            apply List.filter_congr
            intro q _
            by_cases hq : q = p
            · subst hq
              simp [hpc, Chan.full, Nat.le_of_not_lt hroom, hcl]
            · simp [hq]
          · intro q
            simp only [broadcastResult, Hub.setSend, Hub.delete]
            by_cases hq : q = p
            · subst hq
              simp [hpn, hpc, delivered, hroom, hcl]
            · simp [hq]
          · rfl
        · intro q hq hne
          have hqp : q ≠ p := fun e => hpn (e ▸ hq)
          simp only [Hub.setSend, Hub.delete, hqp, if_false]
          exact hopen q (List.mem_cons_of_mem _ hq) hne

/-- The order in which the range visits the keys does not matter: two
passes over permutations of the same duplicate-free key list end in the
same hub state. -/
theorem broadcastLoop_perm (c : Ptr) (data : Message δ) (ps ps' : List Ptr) (h : Hub δ)
    (hperm : ps.Perm ps') (hnd : ps.Nodup)
    (hopen : ∀ p ∈ ps, p ≠ c → (h.heap p).send.closed = false) :
    broadcastLoop c data ps' h = broadcastLoop c data ps h := by
  have hmem : ∀ q, q ∈ ps ↔ q ∈ ps' := fun q => hperm.mem_iff
  rw [broadcastLoop_ok c data ps h hnd hopen,
    broadcastLoop_ok c data ps' h (hperm.nodup_iff.mp hnd)
      (fun p hp hpc => hopen p ((hmem p).mpr hp) hpc)]
  congr 1
  apply Hub.ext_fields
  · simp only [broadcastResult, hmem]
  · intro q
    simp only [broadcastResult, hmem]
  · rfl

theorem broadcastMessage_ok (h : Hub δ) (c : Ptr) (msg : Message δ) (hwf : h.WF) :
    broadcastMessage h c msg = .ok (broadcastResult h c msg h.room.clients) :=
  broadcastLoop_ok c msg h.room.clients h hwf.1 (fun p hp _ => (hwf.2 p hp).2.1)

theorem broadcastResult_heap_sender (h : Hub δ) (c : Ptr) (msg : Message δ) (ps : List Ptr) :
    (broadcastResult h c msg ps).heap c = h.heap c := by
  simp [broadcastResult]

theorem broadcastResult_heap_receiver (h : Hub δ) (c p : Ptr) (msg : Message δ)
    (hp : p ∈ h.room.clients) (hpc : p ≠ c) :
    (broadcastResult h c msg h.room.clients).heap p = delivered msg (h.heap p) := by
  simp [broadcastResult, hp, hpc]

theorem broadcastResult_heap_outsider (h : Hub δ) (c p : Ptr) (msg : Message δ)
    (hp : p ∉ h.room.clients) :
    (broadcastResult h c msg h.room.clients).heap p = h.heap p := by
  simp [broadcastResult, hp]

theorem broadcastResult_mem (h : Hub δ) (c p : Ptr) (msg : Message δ) :
    p ∈ (broadcastResult h c msg h.room.clients).room.clients ↔
      p ∈ h.room.clients ∧ (p = c ∨ (h.heap p).send.full = false) := by
  simp only [broadcastResult, List.mem_filter]
  constructor
  · rintro ⟨hp, hk⟩
    refine ⟨hp, ?_⟩
    by_cases hpc : p = c
    · exact Or.inl hpc
    · right
      simpa [hp, hpc] using hk
  · rintro ⟨hp, hk⟩
    refine ⟨hp, ?_⟩
    rcases hk with hk | hk
    · simp [hk]
    · simp [hk]

theorem delivered_room (data : Message δ) (cl : Client δ) (hroom : cl.send.full = false) :
    delivered data cl = { cl with send := { cl.send with buf := cl.send.buf ++ [data] } } := by
  have : cl.send.buf.length < cl.send.cap := by
    simpa [Chan.full] using hroom
  simp [delivered, this]

theorem delivered_full (data : Message δ) (cl : Client δ) (hfull : cl.send.full = true) :
    delivered data cl = { cl with send := { cl.send with closed := true } } := by
  have : ¬ cl.send.buf.length < cl.send.cap := by
    simpa [Chan.full] using hfull
  simp [delivered, this]

/-- What a broadcast pass that returns leaves alone, in any hub state: the
allocator, every client it does not visit, the sender, and all names; and
it adds no member. -/
theorem broadcastLoop_frame (c : Ptr) (data : Message δ) :
    ∀ (ps : List Ptr) (h h' : Hub δ), broadcastLoop c data ps h = .ok h' →
      h'.next = h.next ∧
      (∀ q, (q ∉ ps ∨ q = c) → h'.heap q = h.heap q) ∧
      (∀ q, (h'.heap q).username = (h.heap q).username) ∧
      (∀ q, q ∈ h'.room.clients → q ∈ h.room.clients) := by
  intro ps
  induction ps with
  | nil =>
    intro h h' hrun
    simp only [broadcastLoop, Except.ok.injEq] at hrun
    subst hrun
    simp
  | cons p ps ih =>
    intro h h' hrun
    by_cases hpc : p = c
    · subst hpc
      simp only [broadcastLoop, ne_eq, not_true_eq_false, if_false] at hrun
      obtain ⟨hn, hf, hu, hm⟩ := ih h h' hrun
      refine ⟨hn, ?_, hu, hm⟩
      intro q hq
      by_cases hqp : q = p
      · exact hf q (Or.inr hqp)
      · apply hf q
        rcases hq with hq | hq
        · exact Or.inl (fun hmem => hq (List.mem_cons_of_mem _ hmem))
        · exact Or.inr hq
    · simp only [broadcastLoop, ne_eq, hpc, not_false_eq_true, if_true] at hrun
      cases hts : (h.heap p).send.trySend data with
      | error e => simp [hts] at hrun
      | ok r =>
        cases r with
        | some ch =>
          simp only [hts] at hrun
          obtain ⟨hn, hf, hu, hm⟩ := ih _ h' hrun
          refine ⟨hn, ?_, ?_, hm⟩
          · intro q hq
            have hqp : q ≠ p := by
              rcases hq with hq | hq
              · exact fun e => hq (e ▸ List.mem_cons_self _ _)
              · exact fun e => hpc (e ▸ hq)
            have hq2 : q ∉ ps ∨ q = c := by
              rcases hq with hq | hq
              · exact Or.inl (fun hmem => hq (List.mem_cons_of_mem _ hmem))
              · exact Or.inr hq
            rw [hf q hq2]
            simp [Hub.setSend, hqp]
          · intro q
            rw [hu q]
            by_cases hqp : q = p
            · subst hqp; simp [Hub.setSend]
            · simp [Hub.setSend, hqp]
        | none =>
          simp only [hts] at hrun
          cases hcl : (h.heap p).send.close with
          | error e => simp [hcl] at hrun
          | ok ch =>
            simp only [hcl] at hrun
            obtain ⟨hn, hf, hu, hm⟩ := ih _ h' hrun
            refine ⟨hn, ?_, ?_, ?_⟩
            · intro q hq
              have hqp : q ≠ p := by
                rcases hq with hq | hq
                · exact fun e => hq (e ▸ List.mem_cons_self _ _)
                · exact fun e => hpc (e ▸ hq)
              have hq2 : q ∉ ps ∨ q = c := by
                rcases hq with hq | hq
                · exact Or.inl (fun hmem => hq (List.mem_cons_of_mem _ hmem))
                · exact Or.inr hq
              rw [hf q hq2]
              simp [Hub.setSend, Hub.delete, hqp]
            · intro q
              rw [hu q]
              by_cases hqp : q = p
              · subst hqp; simp [Hub.setSend, Hub.delete]
              · simp [Hub.setSend, Hub.delete, hqp]
            · intro q hq
              have := hm q hq
              simp only [Hub.delete, Hub.setSend, List.mem_filter] at this
              exact this.1

theorem broadcastMessage_frame (h h' : Hub δ) (c : Ptr) (msg : Message δ)
    (hrun : broadcastMessage h c msg = .ok h') :
    h'.next = h.next ∧
      (∀ q, (q ∉ h.room.clients ∨ q = c) → h'.heap q = h.heap q) ∧
      (∀ q, (h'.heap q).username = (h.heap q).username) ∧
      (∀ q, q ∈ h'.room.clients → q ∈ h.room.clients) :=
  broadcastLoop_frame c msg h.room.clients h h' hrun

theorem broadcastResult_WF (h : Hub δ) (c : Ptr) (msg : Message δ) (hwf : h.WF) :
    (broadcastResult h c msg h.room.clients).WF := by
  refine ⟨?_, ?_⟩
  · exact hwf.1.filter _
  · intro p hp
    have hmem := (broadcastResult_mem h c p msg).mp hp
    obtain ⟨hlt, hop, hcap, hlen⟩ := hwf.2 p hmem.1
    by_cases hpc : p = c
    · subst hpc
      rw [broadcastResult_heap_sender]
      exact ⟨hlt, hop, hcap, hlen⟩
    · have hroom : (h.heap p).send.full = false := by
        rcases hmem.2 with h1 | h1
        · exact absurd h1 hpc
        · exact h1
      rw [broadcastResult_heap_receiver h c p msg hmem.1 hpc, delivered_room _ _ hroom]
      refine ⟨hlt, hop, hcap, ?_⟩
      have : (h.heap p).send.buf.length < (h.heap p).send.cap := by
        simpa [Chan.full] using hroom
      simp only [List.length_append, List.length_singleton]
      omega

theorem broadcastMessage_WF (h : Hub δ) (c : Ptr) (msg : Message δ) (hwf : h.WF) :
    ∃ h', broadcastMessage h c msg = .ok h' ∧ h'.WF :=
  ⟨_, broadcastMessage_ok h c msg hwf, broadcastResult_WF h c msg hwf⟩

theorem not_mem_next (h : Hub δ) (hwf : h.WF) : h.next ∉ h.room.clients :=
  fun hm => Nat.lt_irrefl _ (hwf.2 _ hm).1

theorem register_clients (h : Hub δ) (u : String) (hwf : h.WF) :
    (register h u).room.clients = h.room.clients ++ [h.next] := by
  simp [register, Hub.insert, not_mem_next h hwf]

theorem register_heap (h : Hub δ) (u : String) (q : Ptr) :
    (register h u).heap q =
      if q = h.next then { username := u, send := Chan.make sendCap } else h.heap q := by
  simp [register, Hub.insert]

theorem register_next (h : Hub δ) (u : String) : (register h u).next = h.next + 1 := by
  simp [register, Hub.insert]

theorem register_mem (h : Hub δ) (u : String) (q : Ptr) :
    q ∈ (register h u).room.clients ↔ q ∈ h.room.clients ∨ q = h.next := by
  simp only [register, Hub.insert]
  split_ifs with hm
  · constructor
    · exact Or.inl
    · rintro (h1 | h1)
      · exact h1
      · exact h1 ▸ hm
  · simp

theorem register_WF (h : Hub δ) (u : String) (hwf : h.WF) : (register h u).WF := by
  refine ⟨?_, ?_⟩
  · rw [register_clients h u hwf]
    refine List.Nodup.append hwf.1 (List.nodup_singleton _) ?_
    intro a ha hb
    rw [List.mem_singleton] at hb
    exact not_mem_next h hwf (hb ▸ ha)
  · intro p hp
    rw [register_clients h u hwf, List.mem_append, List.mem_singleton] at hp
    rw [register_heap]
    by_cases hpn : p = h.next
    · subst hpn
      simp [register, Hub.insert, Chan.make]
    · rcases hp with hp | hp
      · obtain ⟨hlt, hrest⟩ := hwf.2 p hp
        simp only [hpn, if_false]
        have hnext : (register h u).next = h.next + 1 := by simp [register, Hub.insert]
        exact ⟨by rw [hnext]; exact Nat.lt_succ_of_lt hlt, hrest⟩
      · exact absurd hp hpn

theorem detached_clients (h : Hub δ) (c : Ptr) :
    (detached h c).room.clients = h.room.clients.filter (fun q => decide (q ≠ c)) := rfl

theorem detached_heap (h : Hub δ) (c q : Ptr) :
    (detached h c).heap q =
      if q = c then { h.heap c with send := { (h.heap c).send with closed := true } }
      else h.heap q := by
  simp [detached, Hub.setSend, Hub.delete]

theorem detached_WF (h : Hub δ) (c : Ptr) (hwf : h.WF) : (detached h c).WF := by
  refine ⟨hwf.1.filter _, ?_⟩
  intro p hp
  rw [detached_clients, List.mem_filter] at hp
  have hpc : p ≠ c := by simpa using hp.2
  rw [detached_heap]
  simp only [hpc, if_false]
  exact hwf.2 p hp.1

theorem disconnect_member (h : Hub δ) (c : Ptr) (now : Int) (hwf : h.WF)
    (hc : c ∈ h.room.clients) :
    disconnect h c now = broadcastUsers (detached h c) c now := by
  have hop : (h.heap c).send.closed = false := (hwf.2 c hc).2.1
  simp [disconnect, hc, Chan.close, Hub.delete, hop, detached]

theorem disconnect_absent (h : Hub δ) (c : Ptr) (now : Int) (hc : c ∉ h.room.clients) :
    disconnect h c now = broadcastUsers h c now := by
  simp [disconnect, hc]

theorem disconnect_WF (h : Hub δ) (c : Ptr) (now : Int) (hwf : h.WF) :
    ∃ h', disconnect h c now = .ok h' ∧ h'.WF := by
  by_cases hc : c ∈ h.room.clients
  · rw [disconnect_member h c now hwf hc]
    exact broadcastMessage_WF _ c _ (detached_WF h c hwf)
  · rw [disconnect_absent h c now hc]
    exact broadcastMessage_WF _ c _ hwf

theorem attach_WF (h : Hub δ) (u : String) (now : Int) (hwf : h.WF) :
    ∃ h', attach h u now = .ok h' ∧ h'.WF :=
  broadcastMessage_WF _ _ _ (register_WF h u hwf)

theorem recv_WF (h : Hub δ) (p : Ptr) (hwf : h.WF) : (recv h p).WF := by
  refine ⟨hwf.1, ?_⟩
  intro q hq
  obtain ⟨hlt, hop, hcap, hlen⟩ := hwf.2 q hq
  by_cases hqp : q = p
  · subst hqp
    refine ⟨hlt, ?_, ?_, ?_⟩
    · simpa [recv, Hub.setSend] using hop
    · simpa [recv, Hub.setSend] using hcap
    · simp only [recv, Hub.setSend, if_true, List.length_tail]
      omega
  · simpa [recv, Hub.setSend, hqp] using (⟨hlt, hop, hcap, hlen⟩ : _ ∧ _ ∧ _ ∧ _)

theorem handleMessage_WF (h : Hub δ) (c : Ptr) (msg : Message δ) (now : Int) (hwf : h.WF) :
    ∃ h', handleMessage h c msg now = .ok h' ∧ h'.WF := by
  unfold handleMessage
  split_ifs
  · exact broadcastMessage_WF h c _ hwf
  · exact broadcastMessage_WF h c _ hwf
  · exact broadcastMessage_WF h c _ hwf
  · exact broadcastMessage_WF h c _ hwf
  · exact broadcastMessage_WF h c _ hwf
  · exact broadcastMessage_WF h c _ hwf
  · exact disconnect_WF h c now hwf
  · exact ⟨h, rfl, hwf⟩

theorem step_WF (h : Hub δ) (op : Op δ) (hwf : h.WF) :
    ∃ h', step h op = .ok h' ∧ h'.WF := by
  cases op with
  | attach u now => exact attach_WF h u now hwf
  | handleMessage c msg now => exact handleMessage_WF h c msg now hwf
  | broadcastMessage c msg => exact broadcastMessage_WF h c msg hwf
  | broadcastUsers c now => exact broadcastMessage_WF h c _ hwf
  | disconnect c now => exact disconnect_WF h c now hwf
  | recv p => exact ⟨_, rfl, recv_WF h p hwf⟩

theorem run_WF (ops : List (Op δ)) : ∀ (h : Hub δ), h.WF →
    ∃ h', run h ops = .ok h' ∧ h'.WF := by
  induction ops with
  | nil => intro h hwf; exact ⟨h, rfl, hwf⟩
  | cons op ops ih =>
    intro h hwf
    obtain ⟨h1, hs, hwf1⟩ := step_WF h op hwf
    obtain ⟨h2, hr, hwf2⟩ := ih h1 hwf1
    exact ⟨h2, by simp [run, hs, hr], hwf2⟩

theorem fresh_WF (r : Room) (dflt : Client δ) : (Hub.fresh r dflt).WF := by
  simp [Hub.WF, Hub.fresh]

/-! ## C1: a chat envelope reaches the other member, not the sender -/

/-- C1: for every well-formed room and distinct attached connections `c1`,
`c2` with `c2`'s queue not full, `handleMessage` of an inbound chat envelope
by `c1` returns without fault, appends exactly one chat envelope to `c2`'s
queue, leaves `c1`'s own queue unchanged, and both stay attached. -/
theorem chat_reaches_other_not_sender (h : Hub δ) (c1 c2 : Ptr) (msg : Message δ) (now : Int)
    (hwf : h.WF) (h1 : c1 ∈ h.room.clients) (h2 : c2 ∈ h.room.clients) (hne : c1 ≠ c2)
    (hroom : (h.heap c2).send.full = false) (hchat : msg.Typ = "chat") :
    ∃ h', handleMessage h c1 msg now = .ok h' ∧
      (h'.heap c2).send.buf = (h.heap c2).send.buf ++
        [{ Typ := "chat", User := (h.heap c1).username, Data := msg.Data, Time := now }] ∧
      (h'.heap c2).send.closed = false ∧
      (h'.heap c1).send = (h.heap c1).send ∧
      c1 ∈ h'.room.clients ∧ c2 ∈ h'.room.clients := by
  have hrun : handleMessage h c1 msg now = .ok (broadcastResult h c1
      { Typ := "chat", User := (h.heap c1).username, Data := msg.Data, Time := now }
      h.room.clients) := by
    simp only [handleMessage, hchat, if_true]
    exact broadcastMessage_ok h c1 _ hwf
  refine ⟨_, hrun, ?_, ?_, ?_, ?_, ?_⟩
  · rw [broadcastResult_heap_receiver h c1 c2 _ h2 (Ne.symm hne), delivered_room _ _ hroom]
  · rw [broadcastResult_heap_receiver h c1 c2 _ h2 (Ne.symm hne), delivered_room _ _ hroom]
    exact (hwf.2 c2 h2).2.1
  · rw [broadcastResult_heap_sender]
  · exact (broadcastResult_mem h c1 c1 _).mpr ⟨h1, Or.inl rfl⟩
  · exact (broadcastResult_mem h c1 c2 _).mpr ⟨h2, Or.inr hroom⟩

/-- The witness of C1: Alice sends "hi" in `aliceBob`. -/
theorem chat_reaches_other_not_sender_witness :
    ∃ h', handleMessage aliceBob 0 { Typ := "chat", User := "", Data := Data.inbound "hi", Time := 0 } 7
        = .ok h' ∧
      (h'.heap 1).send.buf = (aliceBob.heap 1).send.buf ++
        [{ Typ := "chat", User := (aliceBob.heap 0).username, Data := Data.inbound "hi", Time := 7 }] ∧
      (h'.heap 1).send.closed = false ∧
      (h'.heap 0).send = (aliceBob.heap 0).send ∧
      0 ∈ h'.room.clients ∧ 1 ∈ h'.room.clients :=
  chat_reaches_other_not_sender aliceBob 0 1
    { Typ := "chat", User := "", Data := Data.inbound "hi", Time := 0 } 7
    (by decide) (by decide) (by decide) (by decide) (by decide) (by decide)

/-! ## C2: slow-consumer eviction -/

theorem broadcastMessage_absent (h h' : Hub δ) (c r : Ptr) (msg : Message δ)
    (hrun : broadcastMessage h c msg = .ok h') (hlt : r < h.next) (hr : r ∉ h.room.clients) :
    r < h'.next ∧ r ∉ h'.room.clients := by
  obtain ⟨hn, _, _, hm⟩ := broadcastMessage_frame h h' c msg hrun
  exact ⟨hn ▸ hlt, fun hmem => hr (hm r hmem)⟩

theorem disconnect_absent_stays (h h' : Hub δ) (c r : Ptr) (now : Int)
    (hrun : disconnect h c now = .ok h') (hlt : r < h.next) (hr : r ∉ h.room.clients) :
    r < h'.next ∧ r ∉ h'.room.clients := by
  unfold disconnect at hrun
  split_ifs at hrun with hc
  · simp only at hrun
    cases hcl : ((h.delete c).heap c).send.close with
    | error e => simp [hcl] at hrun
    | ok ch =>
      simp only [hcl] at hrun
      apply broadcastMessage_absent _ h' c r _ hrun
      · exact hlt
      · intro hmem
        simp only [Hub.setSend, Hub.delete, List.mem_filter] at hmem
        exact hr hmem.1
  · exact broadcastMessage_absent h h' c r _ hrun hlt hr

theorem step_absent (h h' : Hub δ) (op : Op δ) (r : Ptr)
    (hrun : step h op = .ok h') (hlt : r < h.next) (hr : r ∉ h.room.clients) :
    r < h'.next ∧ r ∉ h'.room.clients := by
  cases op with
  | attach u now =>
    apply broadcastMessage_absent _ h' _ r _ hrun
    · rw [register_next]; exact Nat.lt_succ_of_lt hlt
    · rw [register_mem]
      rintro (h1 | h1)
      · exact hr h1
      · exact Nat.ne_of_lt hlt h1
  | handleMessage c msg now =>
    simp only [step, handleMessage] at hrun
    split_ifs at hrun
    · exact broadcastMessage_absent h h' c r _ hrun hlt hr
    · exact broadcastMessage_absent h h' c r _ hrun hlt hr
    · exact broadcastMessage_absent h h' c r _ hrun hlt hr
    · exact broadcastMessage_absent h h' c r _ hrun hlt hr
    · exact broadcastMessage_absent h h' c r _ hrun hlt hr
    · exact broadcastMessage_absent h h' c r _ hrun hlt hr
    · exact disconnect_absent_stays h h' c r now hrun hlt hr
    · simp only [Except.ok.injEq] at hrun
      subst hrun
      exact ⟨hlt, hr⟩
  | broadcastMessage c msg => exact broadcastMessage_absent h h' c r msg hrun hlt hr
  | broadcastUsers c now => exact broadcastMessage_absent h h' c r _ hrun hlt hr
  | disconnect c now => exact disconnect_absent_stays h h' c r now hrun hlt hr
  | recv p =>
    simp only [step, Except.ok.injEq] at hrun
    subst hrun
    exact ⟨hlt, hr⟩

theorem run_absent (ops : List (Op δ)) (r : Ptr) : ∀ (h h' : Hub δ),
    run h ops = .ok h' → r < h.next → r ∉ h.room.clients →
    r < h'.next ∧ r ∉ h'.room.clients := by
  induction ops with
  | nil =>
    intro h h' hrun hlt hr
    simp only [run, Except.ok.injEq] at hrun
    subst hrun
    exact ⟨hlt, hr⟩
  | cons op ops ih =>
    intro h h' hrun hlt hr
    simp only [run] at hrun
    cases hs : step h op with
    | error e => simp [hs] at hrun
    | ok h1 =>
      simp only [hs] at hrun
      obtain ⟨hlt1, hr1⟩ := step_absent h h1 op r hs hlt hr
      exact ih h1 h' hrun hlt1 hr1

/-- C2: in a well-formed hub, a `broadcastMessage` call by `c` that meets an
attached connection `r ≠ c` whose queue is full (it then holds exactly 256
undrained messages) returns without fault, closes `r`'s queue and removes
`r` from the membership set, enqueues nothing onto it, and keeps every
member whose queue is not full (and the sender) attached; after any later
run of hub operations `r` is still not a member, and no `broadcastMessage`
call made then changes `r`'s queue. -/
theorem full_receiver_evicted (h : Hub δ) (c r : Ptr) (msg : Message δ) (hwf : h.WF)
    (hr : r ∈ h.room.clients) (hrc : r ≠ c) (hfull : (h.heap r).send.full = true) :
    (h.heap r).send.buf.length = 256 ∧
    ∃ h1, broadcastMessage h c msg = .ok h1 ∧
      (h1.heap r).send.closed = true ∧
      (h1.heap r).send.buf = (h.heap r).send.buf ∧
      r ∉ h1.room.clients ∧
      (∀ p ∈ h.room.clients, (p = c ∨ (h.heap p).send.full = false) → p ∈ h1.room.clients) ∧
      (∀ (ops : List (Op δ)) (h2 : Hub δ), run h1 ops = .ok h2 →
        r ∉ h2.room.clients ∧
        ∀ (c' : Ptr) (msg' : Message δ) (h3 : Hub δ),
          broadcastMessage h2 c' msg' = .ok h3 → (h3.heap r).send = (h2.heap r).send) := by
  obtain ⟨hlt, _, hcap, hlen⟩ := hwf.2 r hr
  have hge : (h.heap r).send.cap ≤ (h.heap r).send.buf.length := by
    simpa [Chan.full] using hfull
  have hout : r ∉ (broadcastResult h c msg h.room.clients).room.clients := by
    intro hmem
    rcases ((broadcastResult_mem h c r msg).mp hmem).2 with h1 | h1
    · exact hrc h1
    · rw [hfull] at h1; exact Bool.noConfusion h1
  refine ⟨?_, _, broadcastMessage_ok h c msg hwf, ?_, ?_, hout, ?_, ?_⟩
  · rw [hcap] at hge
    exact Nat.le_antisymm hlen hge
  · rw [broadcastResult_heap_receiver h c r msg hr hrc, delivered_full _ _ hfull]
  · rw [broadcastResult_heap_receiver h c r msg hr hrc, delivered_full _ _ hfull]
  · intro p hp hk
    exact (broadcastResult_mem h c p msg).mpr ⟨hp, hk⟩
  · intro ops h2 hrun
    have hlt1 : r < (broadcastResult h c msg h.room.clients).next := hlt
    obtain ⟨_, hr2⟩ := run_absent ops r _ h2 hrun hlt1 hout
    refine ⟨hr2, ?_⟩
    intro c' msg' h3 hb
    obtain ⟨_, hf, _, _⟩ := broadcastMessage_frame h2 h3 c' msg' hb
    rw [hf r (Or.inl hr2)]

/-- The witness of C2: Alice broadcasts in `bobFull`, where Bob's queue is
full. -/
theorem full_receiver_evicted_witness :
    (bobFull.heap 1).send.buf.length = 256 ∧
    ∃ h1, broadcastMessage bobFull 0 filler = .ok h1 ∧
      (h1.heap 1).send.closed = true ∧
      (h1.heap 1).send.buf = (bobFull.heap 1).send.buf ∧
      1 ∉ h1.room.clients ∧
      (∀ p ∈ bobFull.room.clients,
        (p = 0 ∨ (bobFull.heap p).send.full = false) → p ∈ h1.room.clients) ∧
      (∀ (ops : List (Op String)) (h2 : Hub String), run h1 ops = .ok h2 →
        1 ∉ h2.room.clients ∧
        ∀ (c' : Ptr) (msg' : Message String) (h3 : Hub String),
          broadcastMessage h2 c' msg' = .ok h3 → (h3.heap 1).send = (h2.heap 1).send) :=
  full_receiver_evicted bobFull 0 1 filler (by decide) (by decide) (by decide) (by decide)

/-! ## C3: the `users` announcement and the connection that caused it -/

/-- In any hub state, a `broadcastUsers` call by `c` that returns leaves the
queue of `c` itself as it was: the announcement goes through
`broadcastMessage`, whose loop skips the caller. -/
theorem broadcastUsers_skips_caller (h h' : Hub δ) (c : Ptr) (now : Int)
    (hrun : broadcastUsers h c now = .ok h') : (h'.heap c).send = (h.heap c).send := by
  obtain ⟨_, hf, _, _⟩ := broadcastMessage_frame h h' c _ hrun
  rw [hf c (Or.inr rfl)]

/-- C3, the code at the failing input: Alice attaches to a fresh room and
sends `join`, then Bob attaches.  The run returns with both attached; the
only `users` envelope in Alice's queue is the one Bob's attach produced,
and Bob's queue is empty: neither the connection that just joined nor the
one that sent `join` is handed its own announcement. -/
theorem users_announcement_skips_joiner :
    membersOf (run lobby [Op.attach "Alice" 1, Op.handleMessage 0 (joinOf "Alice") 2,
        Op.attach "Bob" 3]) = some [0, 1] ∧
    membersOf (run lobby [Op.attach "Alice" 1, Op.handleMessage 0 (joinOf "Alice") 2])
      = some [0] ∧
    queueOf (run lobby [Op.attach "Alice" 1, Op.handleMessage 0 (joinOf "Alice") 2]) 0
      = some (Chan.make sendCap) ∧
    queueOf (run lobby [Op.attach "Alice" 1, Op.handleMessage 0 (joinOf "Alice") 2,
        Op.attach "Bob" 3]) 0
      = some { buf := [usersEnvelope ["Alice", "Bob"] 3], cap := sendCap, closed := false } ∧
    queueOf (run lobby [Op.attach "Alice" 1, Op.handleMessage 0 (joinOf "Alice") 2,
        Op.attach "Bob" 3]) 1
      = some (Chan.make sendCap) := by
  decide

/-! ## C4: the announcement a detach sends -/

theorem length_filter_ne (l : List Ptr) (c : Ptr) (hnd : l.Nodup) (hc : c ∈ l) :
    (l.filter (fun q => decide (q ≠ c))).length + 1 = l.length := by
  induction l with
  | nil => cases hc
  | cons a l ih =>
    obtain ⟨ha, hl⟩ := List.nodup_cons.mp hnd
    by_cases hac : a = c
    · subst hac
      have hall : l.filter (fun q => decide (q ≠ a)) = l := by
        apply List.filter_eq_self.mpr
        intro q hq
        have : q ≠ a := fun e => ha (e ▸ hq)
        simpa using this
      rw [List.filter_cons]
      simp only [ne_eq, not_true_eq_false, decide_False, Bool.false_eq_true, if_false]
      rw [hall, List.length_cons]
    · have hcl : c ∈ l := by
        rcases List.mem_cons.mp hc with h1 | h1
        · exact absurd h1.symm hac
        · exact h1
      rw [List.filter_cons]
      simp only [ne_eq, hac, not_false_eq_true, decide_True, if_true, List.length_cons]
      rw [ih hl hcl]

theorem broadcastResult_clients_of_room (h : Hub δ) (c : Ptr) (msg : Message δ)
    (hroom : ∀ p ∈ h.room.clients, p ≠ c → (h.heap p).send.full = false) :
    (broadcastResult h c msg h.room.clients).room.clients = h.room.clients := by
  simp only [broadcastResult]
  apply List.filter_eq_self.mpr
  intro p hp
  by_cases hpc : p = c
  · simp [hpc]
  · simp [hroom p hp hpc]

theorem usersMessage_eq (h : Hub δ) (c : Ptr) (now : Int) :
    usersMessage h c now = usersEnvelope (getUsersList h c) now := rfl

theorem getUsersList_detached (h : Hub δ) (c : Ptr) :
    getUsersList (detached h c) c =
      (h.room.clients.filter (fun q => decide (q ≠ c))).map (fun p => (h.heap p).username) := by
  simp only [getUsersList, detached_clients]
  apply List.map_congr_left
  intro p hp
  have hpc : p ≠ c := by simpa using (List.mem_filter.mp hp).2
  rw [detached_heap]
  simp [hpc]

/-- C4, counterexample: Alice, Bob and a second Bob attach to a fresh room
(no queue is full) and the first Bob (pointer 1) is disconnected.  Alice and
the other Bob each receive one `users` envelope of length 2, and its payload
holds "Bob", the display name of the detached connection. -/
theorem detach_payload_keeps_shared_name :
    membersOf (run lobby [Op.attach "Alice" 1, Op.attach "Bob" 2, Op.attach "Bob" 3])
      = some [0, 1, 2] ∧
    nameOf (run lobby [Op.attach "Alice" 1, Op.attach "Bob" 2, Op.attach "Bob" 3]) 1
      = some "Bob" ∧
    membersOf (run lobby [Op.attach "Alice" 1, Op.attach "Bob" 2, Op.attach "Bob" 3,
        Op.disconnect 1 4]) = some [0, 2] ∧
    queueOf (run lobby [Op.attach "Alice" 1, Op.attach "Bob" 2, Op.attach "Bob" 3,
        Op.disconnect 1 4]) 2
      = some { buf := [usersEnvelope ["Alice", "Bob"] 4], cap := sendCap, closed := false } ∧
    queueOf (run lobby [Op.attach "Alice" 1, Op.attach "Bob" 2, Op.attach "Bob" 3,
        Op.disconnect 1 4]) 0
      = some { buf := [usersEnvelope ["Alice", "Bob"] 2, usersEnvelope ["Alice", "Bob", "Bob"] 3,
                       usersEnvelope ["Alice", "Bob"] 4],
               cap := sendCap, closed := false } ∧
    (queueOf (run lobby [Op.attach "Alice" 1, Op.attach "Bob" 2, Op.attach "Bob" 3,
        Op.disconnect 1 4]) 2).map
        (fun ch => ch.buf.map (fun m => ((payloadOf m).length, decide ("Bob" ∈ payloadOf m))))
      = some [(2, true)] := by
  decide

/-- C4, amended: in a well-formed hub with N members none of whose queues is
full, `disconnect` of a member `c` returns without fault, leaves the other
N-1 members attached, and appends to the queue of each of them exactly one
`users` envelope whose payload lists the display names of those N-1
members, one entry per member; the payload does not hold the name of `c`
whenever no remaining member bears the same name. -/
theorem disconnect_announces_remaining (h : Hub δ) (c : Ptr) (now : Int) (hwf : h.WF)
    (hc : c ∈ h.room.clients)
    (hroom : ∀ p ∈ h.room.clients, (h.heap p).send.full = false) :
    ∃ h' names, disconnect h c now = .ok h' ∧
      h'.room.clients = h.room.clients.filter (fun q => decide (q ≠ c)) ∧
      h'.room.clients.length + 1 = h.room.clients.length ∧
      names = h'.room.clients.map (fun p => (h.heap p).username) ∧
      names.length + 1 = h.room.clients.length ∧
      (∀ p ∈ h'.room.clients,
        (h'.heap p).send.buf = (h.heap p).send.buf ++ [usersEnvelope names now]) ∧
      ((∀ p ∈ h.room.clients, p ≠ c → (h.heap p).username ≠ (h.heap c).username) →
        (h.heap c).username ∉ names) := by
  have hwfd := detached_WF h c hwf
  have hroomd : ∀ p ∈ (detached h c).room.clients, p ≠ c →
      ((detached h c).heap p).send.full = false := by
    intro p hp hpc
    rw [detached_heap]
    simp only [hpc, if_false]
    exact hroom p (List.mem_filter.mp hp).1
  have hcl := broadcastResult_clients_of_room (detached h c) c
    (usersMessage (detached h c) c now) hroomd
  have hlen := length_filter_ne h.room.clients c hwf.1 hc
  refine ⟨broadcastResult (detached h c) c (usersMessage (detached h c) c now)
      (detached h c).room.clients,
    (h.room.clients.filter (fun q => decide (q ≠ c))).map (fun p => (h.heap p).username),
    ?_, ?_, ?_, ?_, ?_, ?_, ?_⟩
  · rw [disconnect_member h c now hwf hc]
    exact broadcastMessage_ok _ c _ hwfd
  · rw [hcl, detached_clients]
  · rw [hcl, detached_clients]; exact hlen
  · rw [hcl, detached_clients]
  · rw [List.length_map]; exact hlen
  · intro p hp
    rw [hcl] at hp
    have hpc : p ≠ c := by simpa using (List.mem_filter.mp hp).2
    rw [broadcastResult_heap_receiver _ c p _ hp hpc, delivered_room _ _ (hroomd p hp hpc),
      usersMessage_eq, getUsersList_detached h c, detached_heap]
    simp [hpc]
  · intro hdiff hmem
    obtain ⟨p, hp, hname⟩ := List.mem_map.mp hmem
    have hpc : p ≠ c := by simpa using (List.mem_filter.mp hp).2
    exact hdiff p (List.mem_filter.mp hp).1 hpc hname

/-- The witness of the amended C4: Bob is disconnected in `aliceBob`. -/
theorem disconnect_announces_remaining_witness :
    ∃ h' names, disconnect aliceBob 1 4 = .ok h' ∧
      h'.room.clients = aliceBob.room.clients.filter (fun q => decide (q ≠ 1)) ∧
      h'.room.clients.length + 1 = aliceBob.room.clients.length ∧
      names = h'.room.clients.map (fun p => (aliceBob.heap p).username) ∧
      names.length + 1 = aliceBob.room.clients.length ∧
      (∀ p ∈ h'.room.clients,
        (h'.heap p).send.buf = (aliceBob.heap p).send.buf ++ [usersEnvelope names 4]) ∧
      ((∀ p ∈ aliceBob.room.clients, p ≠ 1 →
          (aliceBob.heap p).username ≠ (aliceBob.heap 1).username) →
        (aliceBob.heap 1).username ∉ names) :=
  disconnect_announces_remaining aliceBob 1 4 (by decide) (by decide) (by decide)

/-! ## C5: calling `disconnect` twice -/

/-- C5, the code at the failing input: Alice and Bob are attached and Bob
leaves.  When Bob's socket just closes, his receive loop calls `disconnect`
once and Alice receives one `users` announcement.  When Bob sends a `leave`
frame, `handleMessage` calls `disconnect` and the read error that follows
runs the deferred `disconnect` again: the membership set and Bob's closed
queue end up the same as on the other path, but Alice receives the
announcement twice.  The same holds for two `disconnect` calls in a run
from the fresh room: the second call, at the same clock reading, appends a
further `users` envelope to Alice's queue. -/
theorem leave_then_close_announces_twice :
    queueOf (readPump kindDecoder 1 aliceBob [(ReadResult.err, 4)]) 0
      = some { buf := [usersEnvelope ["Alice"] 4], cap := sendCap, closed := false } ∧
    queueOf (readPump kindDecoder 1 aliceBob
        [(ReadResult.message "leave", 4), (ReadResult.err, 4)]) 0
      = some { buf := [usersEnvelope ["Alice"] 4, usersEnvelope ["Alice"] 4],
               cap := sendCap, closed := false } ∧
    membersOf (readPump kindDecoder 1 aliceBob [(ReadResult.err, 4)]) = some [0] ∧
    membersOf (readPump kindDecoder 1 aliceBob
        [(ReadResult.message "leave", 4), (ReadResult.err, 4)]) = some [0] ∧
    queueOf (readPump kindDecoder 1 aliceBob [(ReadResult.err, 4)]) 1
      = some { buf := [], cap := sendCap, closed := true } ∧
    queueOf (readPump kindDecoder 1 aliceBob
        [(ReadResult.message "leave", 4), (ReadResult.err, 4)]) 1
      = some { buf := [], cap := sendCap, closed := true } ∧
    queueOf (run lobby [Op.attach "Alice" 1, Op.attach "Bob" 2, Op.disconnect 1 4]) 0
      = some { buf := [usersEnvelope ["Alice", "Bob"] 2, usersEnvelope ["Alice"] 4],
               cap := sendCap, closed := false } ∧
    queueOf (run lobby [Op.attach "Alice" 1, Op.attach "Bob" 2, Op.disconnect 1 4,
        Op.disconnect 1 4]) 0
      = some { buf := [usersEnvelope ["Alice", "Bob"] 2, usersEnvelope ["Alice"] 4,
                       usersEnvelope ["Alice"] 4],
               cap := sendCap, closed := false } ∧
    queueOf (run lobby [Op.attach "Alice" 1, Op.attach "Bob" 2, Op.disconnect 1 4,
        Op.disconnect 1 4]) 0
      ≠ queueOf (run lobby [Op.attach "Alice" 1, Op.attach "Bob" 2, Op.disconnect 1 4]) 0 := by
  decide

/-! ## C6: what `disconnect` removes and closes -/

set_option maxRecDepth 1000000 in
/-- C6, counterexample: after the run `crowded` Alice and Bob are attached,
Carol is not, and Bob's queue is full.  A first `disconnect` of Alice then
empties the membership set, a decrease by two, and a further `disconnect` of
Carol removes Bob: the trailing `broadcastUsers` evicts the member whose
queue is full. -/
theorem disconnect_may_evict_another :
    membersOf (run lobby crowded) = some [0, 1] ∧
    (queueOf (run lobby crowded) 1).map (fun ch => (ch.buf.length, ch.closed))
      = some (256, false) ∧
    membersOf (run lobby (crowded ++ [Op.disconnect 0 6])) = some [] ∧
    membersOf (run lobby (crowded ++ [Op.disconnect 2 6])) = some [0] ∧
    membersOf (run lobby (crowded ++ [Op.disconnect 2 6])) ≠ membersOf (run lobby crowded) := by
  decide

/-- C6, amended: in a well-formed hub in which no member other than `c` has
a full queue, `disconnect` of `c` returns without fault and leaves exactly
the members other than `c`; when `c` was attached the member count
decreases by exactly one and the open queue of `c` is closed, and when `c`
was not attached (never a member, already disconnected, or evicted by a
broadcast) the membership set and the queue of `c` stay as they were, so
the queue is not closed again. -/
theorem disconnect_once (h : Hub δ) (c : Ptr) (now : Int) (hwf : h.WF)
    (hroom : ∀ p ∈ h.room.clients, p ≠ c → (h.heap p).send.full = false) :
    ∃ h', disconnect h c now = .ok h' ∧
      h'.room.clients = h.room.clients.filter (fun q => decide (q ≠ c)) ∧
      (c ∈ h.room.clients →
        h'.room.clients.length + 1 = h.room.clients.length ∧
        (h.heap c).send.closed = false ∧ (h'.heap c).send.closed = true ∧
        (h'.heap c).send.buf = (h.heap c).send.buf) ∧
      (c ∉ h.room.clients →
        h'.room.clients = h.room.clients ∧ (h'.heap c).send = (h.heap c).send) := by
  by_cases hc : c ∈ h.room.clients
  · have hwfd := detached_WF h c hwf
    have hroomd : ∀ p ∈ (detached h c).room.clients, p ≠ c →
        ((detached h c).heap p).send.full = false := by
      intro p hp hpc
      rw [detached_heap]
      simp only [hpc, if_false]
      exact hroom p (List.mem_filter.mp hp).1 hpc
    have hcl := broadcastResult_clients_of_room (detached h c) c
      (usersMessage (detached h c) c now) hroomd
    have hrun : disconnect h c now = .ok (broadcastResult (detached h c) c
        (usersMessage (detached h c) c now) (detached h c).room.clients) := by
      rw [disconnect_member h c now hwf hc]
      exact broadcastMessage_ok _ c _ hwfd
    refine ⟨_, hrun, ?_, ?_, fun hn => absurd hc hn⟩
    · rw [hcl, detached_clients]
    · intro _
      refine ⟨?_, (hwf.2 c hc).2.1, ?_, ?_⟩
      · rw [hcl, detached_clients]
        exact length_filter_ne h.room.clients c hwf.1 hc
      · rw [broadcastResult_heap_sender, detached_heap]; simp
      · rw [broadcastResult_heap_sender, detached_heap]; simp
  · have hcl := broadcastResult_clients_of_room h c (usersMessage h c now) hroom
    have hself : h.room.clients.filter (fun q => decide (q ≠ c)) = h.room.clients := by
      apply List.filter_eq_self.mpr
      intro q hq
      have : q ≠ c := fun e => hc (e ▸ hq)
      simpa using this
    have hrun : disconnect h c now = .ok (broadcastResult h c (usersMessage h c now)
        h.room.clients) := by
      rw [disconnect_absent h c now hc]
      exact broadcastMessage_ok h c _ hwf
    refine ⟨_, hrun, ?_, fun hm => absurd hm hc, fun _ => ⟨hcl, ?_⟩⟩
    · rw [hcl, hself]
    · rw [broadcastResult_heap_sender]

/-- The witness of the amended C6: Bob is disconnected in `aliceBob`. -/
theorem disconnect_once_witness :
    ∃ h', disconnect aliceBob 1 4 = .ok h' ∧
      h'.room.clients = aliceBob.room.clients.filter (fun q => decide (q ≠ 1)) ∧
      (1 ∈ aliceBob.room.clients →
        h'.room.clients.length + 1 = aliceBob.room.clients.length ∧
        (aliceBob.heap 1).send.closed = false ∧ (h'.heap 1).send.closed = true ∧
        (h'.heap 1).send.buf = (aliceBob.heap 1).send.buf) ∧
      (1 ∉ aliceBob.room.clients →
        h'.room.clients = aliceBob.room.clients ∧ (h'.heap 1).send = (aliceBob.heap 1).send) :=
  disconnect_once aliceBob 1 4 (by decide) (by decide)

/-! ## C7: dispatch follows the relay table -/

theorem relayTable_dispatch (h : Hub δ) (c : Ptr) (m : Message δ) (now : Int) (env : Message δ)
    (hrow : relayTable (h.heap c).username m.Typ m.Data now = some env) :
    handleMessage h c m now = broadcastMessage h c env := by
  unfold relayTable at hrow
  unfold handleMessage
  split_ifs at hrow ⊢ <;>
    (simp only [Option.some.injEq] at hrow; subst hrow; rfl)

/-- C7: for every connection `c` of a well-formed hub and every inbound
envelope `m` of kind chat, play, pause, seek or state_update, the relay
table has a row `env` for it, which is (chat, name of `c`, payload of `m`,
now), (play, name, no payload, now), (pause, name, no payload, now), (seek,
name, payload, now) or (state, no user, payload, now); `handleMessage` is
`broadcastMessage` of that row, returns without fault, appends the row to
the queue of every other member whose queue is not full, leaves the queue of
`c` as it was, and gives the same result whatever `user` and `time` the
inbound envelope carries. -/
theorem dispatch_follows_relay_table (h : Hub δ) (c : Ptr) (m : Message δ) (now : Int)
    (hwf : h.WF)
    (hkind : m.Typ = "chat" ∨ m.Typ = "play" ∨ m.Typ = "pause" ∨ m.Typ = "seek" ∨
      m.Typ = "state_update") :
    ∃ env h', relayTable (h.heap c).username m.Typ m.Data now = some env ∧
      (m.Typ = "chat" →
        env = { Typ := "chat", User := (h.heap c).username, Data := m.Data, Time := now }) ∧
      (m.Typ = "play" →
        env = { Typ := "play", User := (h.heap c).username, Data := Data.absent, Time := now }) ∧
      (m.Typ = "pause" →
        env = { Typ := "pause", User := (h.heap c).username, Data := Data.absent, Time := now }) ∧
      (m.Typ = "seek" →
        env = { Typ := "seek", User := (h.heap c).username, Data := m.Data, Time := now }) ∧
      (m.Typ = "state_update" →
        env = { Typ := "state", User := "", Data := m.Data, Time := now }) ∧
      handleMessage h c m now = broadcastMessage h c env ∧
      handleMessage h c m now = .ok h' ∧
      (h'.heap c).send = (h.heap c).send ∧
      (∀ p ∈ h.room.clients, p ≠ c → (h.heap p).send.full = false →
        (h'.heap p).send.buf = (h.heap p).send.buf ++ [env]) ∧
      (∀ (u : String) (t : Int),
        handleMessage h c { m with User := u, Time := t } now = handleMessage h c m now) := by
  have hex : ∃ env, relayTable (h.heap c).username m.Typ m.Data now = some env := by
    unfold relayTable
    rcases hkind with hk | hk | hk | hk | hk <;> simp [hk]
  obtain ⟨env, hrow⟩ := hex
  have hdisp := relayTable_dispatch h c m now env hrow
  refine ⟨env, broadcastResult h c env h.room.clients, hrow, ?_, ?_, ?_, ?_, ?_, hdisp,
    hdisp.trans (broadcastMessage_ok h c env hwf), ?_, ?_, ?_⟩
  · intro hk
    simpa [relayTable, hk] using hrow.symm
  · intro hk
    simpa [relayTable, hk] using hrow.symm
  · intro hk
    simpa [relayTable, hk] using hrow.symm
  · intro hk
    simpa [relayTable, hk] using hrow.symm
  · intro hk
    simpa [relayTable, hk] using hrow.symm
  · rw [broadcastResult_heap_sender]
  · intro p hp hpc hroom
    rw [broadcastResult_heap_receiver h c p env hp hpc, delivered_room _ _ hroom]
  · intro u t
    rfl

/-- The witness of C7: Alice relays `seekInbound` in `aliceBobSeek`. -/
theorem dispatch_follows_relay_table_witness :
    ∃ env h', relayTable (aliceBobSeek.heap 0).username seekInbound.Typ seekInbound.Data 1700000000
        = some env ∧
      (seekInbound.Typ = "chat" →
        env = { Typ := "chat", User := (aliceBobSeek.heap 0).username, Data := seekInbound.Data,
                Time := 1700000000 }) ∧
      (seekInbound.Typ = "play" →
        env = { Typ := "play", User := (aliceBobSeek.heap 0).username, Data := Data.absent,
                Time := 1700000000 }) ∧
      (seekInbound.Typ = "pause" →
        env = { Typ := "pause", User := (aliceBobSeek.heap 0).username, Data := Data.absent,
                Time := 1700000000 }) ∧
      (seekInbound.Typ = "seek" →
        env = { Typ := "seek", User := (aliceBobSeek.heap 0).username, Data := seekInbound.Data,
                Time := 1700000000 }) ∧
      (seekInbound.Typ = "state_update" →
        env = { Typ := "state", User := "", Data := seekInbound.Data, Time := 1700000000 }) ∧
      handleMessage aliceBobSeek 0 seekInbound 1700000000 = broadcastMessage aliceBobSeek 0 env ∧
      handleMessage aliceBobSeek 0 seekInbound 1700000000 = .ok h' ∧
      (h'.heap 0).send = (aliceBobSeek.heap 0).send ∧
      (∀ p ∈ aliceBobSeek.room.clients, p ≠ 0 → (aliceBobSeek.heap p).send.full = false →
        (h'.heap p).send.buf = (aliceBobSeek.heap p).send.buf ++ [env]) ∧
      (∀ (u : String) (t : Int),
        handleMessage aliceBobSeek 0 { seekInbound with User := u, Time := t } 1700000000
          = handleMessage aliceBobSeek 0 seekInbound 1700000000) :=
  dispatch_follows_relay_table aliceBobSeek 0 seekInbound 1700000000 (by decide)
    (Or.inr (Or.inr (Or.inr (Or.inl rfl))))

/-- The round trip of the specification, evaluated: the `seek` to 125.5 that
Alice sends reaches Bob as (seek, Alice, 125.5, now) and Alice's own queue
stays empty. -/
theorem seek_round_trip :
    queueOf (handleMessage aliceBobSeek 0 seekInbound 1700000000) 1
      = some { buf := [{ Typ := "seek", User := "Alice", Data := Data.inbound 125.5,
                         Time := 1700000000 }],
               cap := sendCap, closed := false } ∧
    queueOf (handleMessage aliceBobSeek 0 seekInbound 1700000000) 0
      = some (Chan.make sendCap) := by
  constructor <;> rfl

/-! ## C8: the announcements of a sequence of attaches -/

theorem broadcastResult_username (h : Hub δ) (c : Ptr) (msg : Message δ) (ps : List Ptr)
    (q : Ptr) : ((broadcastResult h c msg ps).heap q).username = (h.heap q).username := by
  simp only [broadcastResult, delivered]
  split_ifs <;> rfl

theorem fresh_seated (r : Room) (dflt : Client δ) : Seated (Hub.fresh r dflt) [] := by
  refine ⟨fresh_WF r dflt, ?_, ?_, ?_, ?_⟩
  · simp [Hub.fresh]
  · simp [Hub.fresh]
  · simp [Hub.fresh]
  · intro i hi
    simp at hi

theorem register_names (h : Hub δ) (u : String) (pre : List String) (hs : Seated h pre) :
    getUsersList (register h u) h.next = pre ++ [u] := by
  obtain ⟨hwf, hcl, hn, hnames, _⟩ := hs
  simp only [getUsersList]
  rw [register_clients h u hwf, List.map_append, List.map_singleton, register_heap]
  simp only [if_true]
  congr 1
  rw [← hnames]
  apply List.map_congr_left
  intro p hp
  have hpn : p ≠ h.next := fun e => not_mem_next h hwf (e ▸ hp)
  rw [register_heap]
  simp [hpn]

/-- One attach onto at most 256 seated connections evicts nobody. -/
theorem attach_seated (h : Hub δ) (u : String) (now : Int) (pre : List String)
    (hs : Seated h pre) (hlen : pre.length ≤ 256) :
    ∃ h', attach h u now = .ok h' ∧ Seated h' (pre ++ [u]) := by
  have hs0 := hs
  obtain ⟨hwf, hcl, hn, hnames, hbuf⟩ := hs
  have hwfr := register_WF h u hwf
  have hclr : (register h u).room.clients = List.range (pre.length + 1) := by
    rw [register_clients h u hwf, hcl, hn, List.range_succ]
  have hroom : ∀ p ∈ (register h u).room.clients, p ≠ h.next →
      ((register h u).heap p).send.full = false := by
    intro p hp hpn
    rw [hclr, List.mem_range] at hp
    have hplt : p < pre.length :=
      Nat.lt_of_le_of_ne (Nat.le_of_lt_succ hp) (hn ▸ hpn)
    have hpm : p ∈ h.room.clients := by rw [hcl, List.mem_range]; exact hplt
    have hcap := (hwf.2 p hpm).2.2.1
    have hb := hbuf p hplt
    rw [register_heap]
    simp only [hpn, if_false, Chan.full, hcap, sendCap, decide_eq_false_iff_not, not_le]
    omega
  have hkeep := broadcastResult_clients_of_room (register h u) h.next
    (usersMessage (register h u) h.next now) hroom
  refine ⟨_, broadcastMessage_ok _ _ _ hwfr, broadcastResult_WF _ _ _ hwfr, ?_, ?_, ?_, ?_⟩
  · rw [hkeep, hclr, List.length_append, List.length_singleton]
  · simp only [broadcastResult, register_next, hn, List.length_append, List.length_singleton]
  · rw [hkeep]
    have := register_names h u pre hs0
    simp only [getUsersList] at this
    rw [← this]
    apply List.map_congr_left
    intro p _
    rw [broadcastResult_username]
  · intro i hi
    rw [List.length_append, List.length_singleton] at hi ⊢
    by_cases hin : i = h.next
    · subst hin
      rw [broadcastResult_heap_sender, register_heap]
      simp only [if_true, Chan.make, List.length_nil]
      rw [hn, Nat.zero_add]
    · have hilt : i < pre.length :=
        Nat.lt_of_le_of_ne (Nat.le_of_lt_succ hi) (hn ▸ hin)
      have him : i ∈ (register h u).room.clients := by
        rw [hclr, List.mem_range]; exact hi
      rw [broadcastResult_heap_receiver _ _ i _ him hin, delivered_room _ _ (hroom i him hin),
        register_heap]
      simp only [hin, if_false, List.length_append, List.length_singleton]
      have := hbuf i hilt
      omega

theorem attachAll_seated (rest : List (String × Int)) :
    ∀ (h : Hub δ) (pre : List String), Seated h pre → pre.length + rest.length ≤ 257 →
      ∃ h', attachAll h rest = .ok (h', announcements pre rest) ∧
        Seated h' (pre ++ rest.map Prod.fst) := by
  induction rest with
  | nil =>
    intro h pre hs _
    exact ⟨h, rfl, by simpa using hs⟩
  | cons x rest ih =>
    intro h pre hs hlen
    obtain ⟨u, now⟩ := x
    rw [List.length_cons] at hlen
    obtain ⟨h1, ha, hs1⟩ := attach_seated h u now pre hs (by omega)
    obtain ⟨h2, hr, hs2⟩ := ih h1 (pre ++ [u]) hs1
      (by rw [List.length_append, List.length_singleton]; omega)
    refine ⟨h2, ?_, by simpa using hs2⟩
    simp only [attachAll, ha, hr, announcements, usersMessage_eq, register_names h u pre hs]

theorem attachAll_upto (rest : List (String × Int)) :
    ∀ (h : Hub δ) (pre : List String), Seated h pre → pre.length + rest.length ≤ 258 →
      ∃ h', attachAll h rest = .ok (h', announcements pre rest) := by
  induction rest with
  | nil =>
    intro h pre _ _
    exact ⟨h, rfl⟩
  | cons x rest ih =>
    intro h pre hs hlen
    obtain ⟨u, now⟩ := x
    rw [List.length_cons] at hlen
    cases rest with
    | nil =>
      obtain ⟨h1, ha, _⟩ := attach_WF h u now hs.1
      exact ⟨h1, by
        simp only [attachAll, ha, announcements, usersMessage_eq, register_names h u pre hs]⟩
    | cons y rest =>
      rw [List.length_cons] at hlen
      obtain ⟨h1, ha, hs1⟩ := attach_seated h u now pre hs (by omega)
      obtain ⟨h2, hr⟩ := ih h1 (pre ++ [u]) hs1
        (by rw [List.length_append, List.length_singleton, List.length_cons]; omega)
      refine ⟨h2, ?_⟩
      simp only [attachAll, ha, announcements, usersMessage_eq, register_names h u pre hs] at hr ⊢
      simp only [hr]

theorem announcements_getElem? (rest : List (String × Int)) :
    ∀ (pre : List String) (i : Nat),
      (announcements pre rest : List (Message δ))[i]? =
        rest[i]?.map (fun x => usersEnvelope (pre ++ (rest.take (i + 1)).map Prod.fst) x.2) := by
  induction rest with
  | nil => intro pre i; simp [announcements]
  | cons x rest ih =>
    intro pre i
    obtain ⟨u, now⟩ := x
    cases i with
    | zero => simp [announcements]
    | succ i => simp [announcements, ih]

theorem attachAll_append (l1 l2 : List (String × Int)) :
    ∀ (h h1 h2 : Hub δ) (e1 e2 : List (Message δ)),
      attachAll h l1 = .ok (h1, e1) → attachAll h1 l2 = .ok (h2, e2) →
      attachAll h (l1 ++ l2) = .ok (h2, e1 ++ e2) := by
  induction l1 with
  | nil =>
    intro h h1 h2 e1 e2 hr1 hr2
    simp only [attachAll, Except.ok.injEq, Prod.mk.injEq] at hr1
    obtain ⟨rfl, rfl⟩ := hr1
    simpa using hr2
  | cons x l1 ih =>
    intro h h1 h2 e1 e2 hr1 hr2
    obtain ⟨u, now⟩ := x
    simp only [attachAll] at hr1
    cases ha : attach h u now with
    | error e => simp [ha] at hr1
    | ok g =>
      simp only [ha] at hr1
      cases hg : attachAll g l1 with
      | error e => simp [hg] at hr1
      | ok r =>
        obtain ⟨g1, e1'⟩ := r
        simp only [hg, Except.ok.injEq, Prod.mk.injEq] at hr1
        obtain ⟨rfl, rfl⟩ := hr1
        have := ih g g1 h2 e1' e2 hg hr2
        show attachAll h ((u, now) :: (l1 ++ l2)) = _
        simp only [attachAll, ha, this, List.cons_append]

/-- The attach onto 257 seated, undrained connections evicts the first one:
its queue holds 256 announcements. -/
theorem attach_overflow (h : Hub δ) (u : String) (now : Int) (pre : List String)
    (hs : Seated h pre) (hlen : pre.length = 257) :
    ∃ h', attach h u now = .ok h' ∧ h'.WF ∧ h'.room.clients.length = 257 := by
  obtain ⟨hwf, hcl, hn, _, hbuf⟩ := hs
  have hwfr := register_WF h u hwf
  have hclr : (register h u).room.clients = List.range (pre.length + 1) := by
    rw [register_clients h u hwf, hcl, hn, List.range_succ]
  refine ⟨_, broadcastMessage_ok _ _ _ hwfr, broadcastResult_WF _ _ _ hwfr, ?_⟩
  have hfil : (broadcastResult (register h u) h.next (usersMessage (register h u) h.next now)
      (register h u).room.clients).room.clients =
      (List.range (pre.length + 1)).filter (fun q => decide (q ≠ 0)) := by
    simp only [broadcastResult]
    rw [hclr]
    apply List.filter_congr
    intro q hq
    have hqs : q < pre.length + 1 := List.mem_range.mp hq
    by_cases hqn : q = h.next
    · have hq0 : q ≠ 0 := by
        rw [hqn, hn, hlen]; exact Nat.succ_ne_zero _
      simp only [hqn, ne_eq, not_true_eq_false, decide_False, Bool.and_false, Bool.false_and,
        Bool.not_false]
      rw [← hqn]
      simp only [hq0, not_false_eq_true, decide_True]
    · have hqlt : q < pre.length :=
        Nat.lt_of_le_of_ne (Nat.le_of_lt_succ hqs) (by rw [← hn]; exact hqn)
      have hqm : q ∈ h.room.clients := by rw [hcl, List.mem_range]; exact hqlt
      have hcap : (h.heap q).send.cap = 256 := (hwf.2 q hqm).2.2.1
      have hb : (h.heap q).send.buf.length + q + 1 = 257 := hlen ▸ hbuf q hqlt
      rw [register_heap]
      simp only [hqn, if_false, hq, decide_True, ne_eq, not_false_eq_true, Bool.true_and,
        Chan.full, hcap]
      by_cases hq0 : q = 0
      · subst hq0
        have h256 : (h.heap 0).send.buf.length = 256 := by
          have hb' : (h.heap 0).send.buf.length + 1 = 257 := hb
          exact Nat.succ_injective hb'
        simp only [h256, Nat.le_refl, decide_True, Bool.not_true, not_true_eq_false,
          decide_False]
      · have hpos : 0 < q := Nat.pos_of_ne_zero hq0
        have hnf : ¬ 256 ≤ (h.heap q).send.buf.length := by
          intro hge
          have h1 : 256 + q + 1 ≤ 257 := by
            rw [← hb]
            exact Nat.succ_le_succ (Nat.add_le_add_right hge q)
          have h2 : 256 + 1 + 1 ≤ 256 + q + 1 :=
            Nat.succ_le_succ (Nat.add_le_add_left hpos 256)
          exact absurd (Nat.le_trans h2 h1) (by decide)
        simp only [hnf, decide_False, Bool.not_false, hq0, not_false_eq_true, decide_True]
  rw [hfil]
  have := length_filter_ne (List.range (pre.length + 1)) 0 (List.nodup_range _)
    (List.mem_range.mpr (Nat.succ_pos _))
  rw [List.length_range] at this
  rw [Nat.succ_injective this, hlen]

/-- After 257 undrained attaches to a fresh room, the second next attach
announces one name fewer than the number of attaches. -/
theorem attach_two_past_capacity (r : Room) (dflt : Client δ) (l : List (String × Int))
    (x y : String × Int) (hl : l.length = 257) :
    lastPayloadLength (attachAll (Hub.fresh r dflt) (l ++ [x, y])) = some 258 := by
  obtain ⟨u, t⟩ := x
  obtain ⟨v, t'⟩ := y
  obtain ⟨h257, hr257, hs257⟩ := attachAll_seated l (Hub.fresh r dflt) []
    (fresh_seated r dflt) (by rw [hl]; exact Nat.le_of_eq (Nat.zero_add _))
  have hpl : ([] ++ l.map Prod.fst).length = 257 := by
    rw [List.nil_append, List.length_map, hl]
  obtain ⟨h258, ha258, hwf258, hlen258⟩ := attach_overflow h257 u t _ hs257 hpl
  obtain ⟨h259, ha259, _⟩ := attach_WF h258 v t' hwf258
  have htail : attachAll h257 [(u, t), (v, t')] = .ok (h259,
      [usersMessage (register h257 u) h257.next t,
       usersMessage (register h258 v) h258.next t']) := by
    simp only [attachAll, ha258, ha259]
  have hall := attachAll_append _ _ (Hub.fresh r dflt) h257 h259 _ _ hr257 htail
  have hpay : (payloadOf (usersMessage (register h258 v) h258.next t' : Message δ)).length
      = 258 := by
    simp only [usersMessage, payloadOf, getUsersList, List.length_map]
    rw [register_clients h258 v hwf258, List.length_append, hlen258]
    rfl
  rw [hall]
  simp only [lastPayloadLength, Except.toOption, Option.bind, List.getLast?_append,
    List.getLast?_cons_cons, List.getLast?_singleton, Option.or, Option.map_some', hpay]

/-- C8, counterexample: 259 connections attach to the fresh room and no
queue is drained.  The envelope built after the 259th attach carries 258
names, not 259: the 258th attach found the first connection's queue full
(256 announcements) and evicted it. -/
theorem attach_259_announces_258 :
    manyGuests.length = 259 ∧ lastPayloadLength (attachAll lobby manyGuests) = some 258 :=
  ⟨by decide, attach_two_past_capacity _ _ _ _ _ (List.length_replicate _ _)⟩

/-- C8, amended: for every sequence of k ≤ 258 attaches to a fresh room
(each followed by `broadcastUsers` as in `websocketHandler`, nothing
drained), the run returns without fault and the `users` envelope built
after the i-th attach carries exactly the display names of the i
connections attached so far, one entry per connection, duplicates kept (in
the order of attachment here; Go leaves the order open); and `getUsersList`
always has length equal to the member count. -/
theorem attach_sequence_announcements (r : Room) (dflt : Client δ) (l : List (String × Int))
    (hlen : l.length ≤ 258) :
    ∃ h' envs, attachAll (Hub.fresh r dflt) l = .ok (h', envs) ∧
      envs.length = l.length ∧
      (∀ i, envs[i]? =
        l[i]?.map (fun x => usersEnvelope ((l.take (i + 1)).map Prod.fst) x.2)) ∧
      (∀ i env, envs[i]? = some env →
        env.Typ = "users" ∧ payloadOf env = (l.take (i + 1)).map Prod.fst ∧
        (payloadOf env).length = i + 1) ∧
      (∀ (h : Hub δ) (c : Ptr), (getUsersList h c).length = h.room.clients.length) := by
  obtain ⟨h', hrun⟩ := attachAll_upto l (Hub.fresh r dflt) [] (fresh_seated r dflt)
    (by simpa using hlen)
  have hidx : ∀ i, (announcements [] l : List (Message δ))[i]? =
      l[i]?.map (fun x => usersEnvelope ((l.take (i + 1)).map Prod.fst) x.2) := by
    intro i
    rw [announcements_getElem?]
    simp
  have hlen2 : (announcements [] l : List (Message δ)).length = l.length := by
    apply Nat.le_antisymm
    · by_contra hcon
      have hlt : l.length < (announcements [] l : List (Message δ)).length := Nat.lt_of_not_le hcon
      have := hidx l.length
      rw [List.getElem?_eq_getElem hlt, List.getElem?_eq_none (Nat.le_refl _)] at this
      simp at this
    · by_contra hcon
      have hlt : (announcements [] l : List (Message δ)).length < l.length :=
        Nat.lt_of_not_le hcon
      have := hidx (announcements [] l : List (Message δ)).length
      rw [List.getElem?_eq_none (Nat.le_refl _), List.getElem?_eq_getElem hlt] at this
      simp at this
  refine ⟨h', _, hrun, hlen2, hidx, ?_, ?_⟩
  · intro i env henv
    rw [hidx i] at henv
    cases hx : l[i]? with
    | none => simp [hx] at henv
    | some x =>
      simp only [hx, Option.map_some', Option.some.injEq] at henv
      subst henv
      have hi : i < l.length := by
        by_contra hcon
        rw [List.getElem?_eq_none (Nat.le_of_not_lt hcon)] at hx
        exact Option.noConfusion hx
      refine ⟨rfl, rfl, ?_⟩
      simp only [payloadOf, usersEnvelope, List.length_map, List.length_take]
      exact Nat.min_eq_left hi
  · intro h c
    simp [getUsersList]

/-- The witness of the amended C8: Alice, Bob and Carol attach to the fresh
room of `lobby`. -/
theorem attach_sequence_announcements_witness :
    ∃ h' envs, attachAll lobby [("Alice", 1), ("Bob", 2), ("Carol", 3)] = .ok (h', envs) ∧
      envs.length = [("Alice", (1 : Int)), ("Bob", 2), ("Carol", 3)].length ∧
      (∀ i, envs[i]? =
        [("Alice", (1 : Int)), ("Bob", 2), ("Carol", 3)][i]?.map
          (fun x => usersEnvelope
            (([("Alice", (1 : Int)), ("Bob", 2), ("Carol", 3)].take (i + 1)).map Prod.fst) x.2)) ∧
      (∀ i env, envs[i]? = some env →
        env.Typ = "users" ∧
        payloadOf env = ([("Alice", (1 : Int)), ("Bob", 2), ("Carol", 3)].take (i + 1)).map Prod.fst ∧
        (payloadOf env).length = i + 1) ∧
      (∀ (h : Hub String) (c : Ptr), (getUsersList h c).length = h.room.clients.length) :=
  attach_sequence_announcements _ _ [("Alice", 1), ("Bob", 2), ("Carol", 3)] (by decide)

/-- The scenario of the specification, evaluated: attaching Alice, Bob and
Carol builds the payloads [Alice], [Alice, Bob], [Alice, Bob, Carol]. -/
theorem alice_bob_carol_payloads :
    (attachAll lobby [("Alice", 1), ("Bob", 2), ("Carol", 3)]).toOption.map
        (fun r => r.2.map payloadOf)
      = some [["Alice"], ["Alice", "Bob"], ["Alice", "Bob", "Carol"]] := by
  decide

/-! ## C9 and C10: the registry -/

theorem lookup_store_same (m : Registry) (roomID : String) (room : Room) :
    (m.store roomID room).lookup roomID = some room := by
  induction m with
  | nil => simp [Registry.store, Registry.lookup]
  | cons e m ih =>
    obtain ⟨k, r⟩ := e
    by_cases hk : k = roomID
    · simp [Registry.store, Registry.lookup, hk]
    · simp [Registry.store, Registry.lookup, hk, ih]

theorem lookup_store_other (m : Registry) (roomID other : String) (room : Room)
    (hne : other ≠ roomID) : (m.store roomID room).lookup other = m.lookup other := by
  induction m with
  | nil => simp [Registry.store, Registry.lookup, Ne.symm hne]
  | cons e m ih =>
    obtain ⟨k, r⟩ := e
    by_cases hk : k = roomID
    · have hko : k ≠ other := fun e => hne (e ▸ hk)
      simp [Registry.store, Registry.lookup, hk, Ne.symm hne]
    · by_cases hko : k = other
      · subst hko
        simp [Registry.store, Registry.lookup, hne]
      · simp [Registry.store, Registry.lookup, hk, hko, ih]

theorem lookup_absent (m : Registry) (roomID : String)
    (habs : ∀ room, (roomID, room) ∉ m) : m.lookup roomID = none := by
  induction m with
  | nil => rfl
  | cons e m ih =>
    obtain ⟨k, r⟩ := e
    have hk : k ≠ roomID := by
      intro hk
      exact habs r (hk ▸ List.mem_cons_self _ _)
    simp only [Registry.lookup, hk, if_false]
    exact ih (fun room hmem => habs room (List.mem_cons_of_mem _ hmem))

/-- The identifier `generateRoomID` returns has eight characters, so the
slice inside it and the slice `[:4]` of its callers are in range. -/
theorem generateRoomID_ok (rnd : Nat → Nat) :
    ∃ cs : List Char, cs.length = 8 ∧ generateRoomID rnd = .ok (String.mk cs) := by
  refine ⟨encodeToString ((List.range 6).map (fun i => rnd i % 256)), ?_, ?_⟩
  · have hr : List.range 6 = [0, 1, 2, 3, 4, 5] := by decide
    simp [hr, encodeToString]
  · have hr : List.range 6 = [0, 1, 2, 3, 4, 5] := by decide
    simp [generateRoomID, sliceTo, hr, encodeToString]

theorem sliceTo_four (cs : List Char) (hcs : cs.length = 8) :
    sliceTo (String.mk cs) 4 = .ok (String.mk (cs.take 4)) := by
  simp [sliceTo, hcs]

/-- C9: for every registry and every POST request to `/create-room` with a
non-empty video URL and username, `createRoomHandler` returns without
fault, redirects to the page of the identifier `generateRoomID` produced
(eight characters), and leaves a registry in which that identifier maps to a
room with the given name (or "Room " followed by the first four characters
of the identifier when the name is empty), video URL and owner and an empty
connection set, in which every other identifier maps to what it mapped to
before, and in which `websocketHandler` finds that room. -/
theorem create_then_lookup (m : Registry) (r : CreateRequest) (rnd : Nat → Nat) (now : Int)
    (hpost : r.Method = "POST") (hv : r.videoUrl ≠ "") (hu : r.username ≠ "") :
    ∃ roomID m', generateRoomID rnd = .ok roomID ∧ roomID.data.length = 8 ∧
      createRoomHandler m r rnd now =
        .ok (m', Response.redirect ("/room/" ++ roomID ++ "?username=" ++ r.username) 303) ∧
      m'.lookup roomID = some
        { ID := roomID,
          Name := if r.roomName = "" then "Room " ++ String.mk (roomID.data.take 4)
                  else r.roomName,
          VideoURL := r.videoUrl, Owner := r.username, CreatedAt := now, clients := [] } ∧
      (∀ other, other ≠ roomID → m'.lookup other = m.lookup other) ∧
      (∀ rnd', websocketHandler m' ["", "ws", roomID] r.username rnd' = .ok (m',
        Response.upgrade
          { ID := roomID,
            Name := if r.roomName = "" then "Room " ++ String.mk (roomID.data.take 4)
                    else r.roomName,
            VideoURL := r.videoUrl, Owner := r.username, CreatedAt := now, clients := [] }
          r.username)) := by
  obtain ⟨cs, hcs, hgen⟩ := generateRoomID_ok rnd
  have hcreate : createRoomHandler m r rnd now = .ok
      ((m.store (String.mk cs)
        { ID := String.mk cs,
          Name := if r.roomName = "" then "Room " ++ String.mk (cs.take 4) else r.roomName,
          VideoURL := r.videoUrl, Owner := r.username, CreatedAt := now, clients := [] }),
        Response.redirect ("/room/" ++ String.mk cs ++ "?username=" ++ r.username) 303) := by
    by_cases hname : r.roomName = ""
    · simp [createRoomHandler, hpost, hv, hu, hgen, hname, sliceTo_four cs hcs]
    · simp [createRoomHandler, hpost, hv, hu, hgen, hname]
  refine ⟨String.mk cs, _, hgen, hcs, hcreate, lookup_store_same _ _ _,
    fun other hne => lookup_store_other m _ other _ hne, ?_⟩
  intro rnd'
  simp [websocketHandler, hu, lookup_store_same]

/-- The witness of C9: `aliceCreates` on the registry `oneRoom`. -/
theorem create_then_lookup_witness :
    ∃ roomID m', generateRoomID sampleEntropy = .ok roomID ∧ roomID.data.length = 8 ∧
      createRoomHandler oneRoom aliceCreates sampleEntropy 1700000000 =
        .ok (m', Response.redirect ("/room/" ++ roomID ++ "?username=" ++ aliceCreates.username)
          303) ∧
      m'.lookup roomID = some
        { ID := roomID,
          Name := if aliceCreates.roomName = "" then "Room " ++ String.mk (roomID.data.take 4)
                  else aliceCreates.roomName,
          VideoURL := aliceCreates.videoUrl, Owner := aliceCreates.username,
          CreatedAt := 1700000000, clients := [] } ∧
      (∀ other, other ≠ roomID → m'.lookup other = oneRoom.lookup other) ∧
      (∀ rnd', websocketHandler m' ["", "ws", roomID] aliceCreates.username rnd' = .ok (m',
        Response.upgrade
          { ID := roomID,
            Name := if aliceCreates.roomName = "" then "Room " ++ String.mk (roomID.data.take 4)
                    else aliceCreates.roomName,
            VideoURL := aliceCreates.videoUrl, Owner := aliceCreates.username,
            CreatedAt := 1700000000, clients := [] }
          aliceCreates.username)) :=
  create_then_lookup oneRoom aliceCreates sampleEntropy 1700000000
    (by decide) (by decide) (by decide)

/-- The run of C9's witness, evaluated: the identifier is "BSpPdJm-", the
room is named "Room BSpP", and the room created earlier is still found. -/
theorem create_example :
    (createRoomHandler oneRoom aliceCreates sampleEntropy 7).toOption.map
        (fun x => (x.2, x.1.lookup "BSpPdJm-", (x.1.lookup "AAAAAAAA").map (fun room => room.Name)))
      = some (Response.redirect "/room/BSpPdJm-?username=Alice" 303,
          some { ID := "BSpPdJm-", Name := "Room BSpP", VideoURL := "v.mp4", Owner := "Alice",
                 CreatedAt := 7, clients := [] },
          some "First") := by
  decide

/-- C10: for every registry and every identifier under which it holds no
room (every identifier, when no room has been created), the read
`rooms.m[roomID]` yields not-found, and `websocketHandler` on any path whose
third part is that identifier returns without fault, answers not-found and
leaves the registry as it was. -/
theorem lookup_absent_not_found (m : Registry) (roomID : String)
    (habs : ∀ room, (roomID, room) ∉ m) :
    m.lookup roomID = none ∧
    ∀ (pathParts : List String) (username : String) (rnd : Nat → Nat),
      pathParts.getD 2 "" = roomID →
      websocketHandler m pathParts username rnd = .ok (m, Response.notFound) := by
  have hnone := lookup_absent m roomID habs
  refine ⟨hnone, ?_⟩
  intro pathParts username rnd hid
  obtain ⟨cs, hcs, hgen⟩ := generateRoomID_ok rnd
  subst hid
  by_cases hshort : pathParts.length < 3
  · simp [websocketHandler, hshort]
  · by_cases hname : username = ""
    · simp only [websocketHandler, hshort, if_false, hname, if_true, hgen,
        sliceTo_four cs hcs, hnone]
    · simp only [websocketHandler, hshort, if_false, hname, hnone]

/-- The witness of C10: the registry in which no room has been created. -/
theorem lookup_absent_not_found_witness :
    Registry.lookup [] "BSpPdJm-" = none ∧
    ∀ (pathParts : List String) (username : String) (rnd : Nat → Nat),
      pathParts.getD 2 "" = "BSpPdJm-" →
      websocketHandler [] pathParts username rnd = .ok ([], Response.notFound) :=
  lookup_absent_not_found [] "BSpPdJm-" (fun _ hmem => nomatch hmem)

set_option maxRecDepth 20000

/-! ## C11: the shape of a room identifier -/

theorem encodeURL_length : encodeURL.length = 64 := by decide

theorem encodeURL_urlSafe : ∀ ch ∈ encodeURL, urlSafe ch = true ∧ ch ≠ '=' := by decide

theorem encodeChar_mem (i : Nat) : encodeChar (i % 64) ∈ encodeURL := by
  have hlt : i % 64 < encodeURL.length := by
    rw [encodeURL_length]; exact Nat.mod_lt _ (by decide)
  unfold encodeChar
  rw [List.getD_eq_getElem _ _ hlt]
  exact List.getElem_mem _

theorem entropyBytes_eq (rnd : Nat → Nat) :
    entropyBytes rnd = [rnd 0 % 256, rnd 1 % 256, rnd 2 % 256, rnd 3 % 256, rnd 4 % 256,
      rnd 5 % 256] := by
  have hr : List.range 6 = [0, 1, 2, 3, 4, 5] := by decide
  simp [entropyBytes, hr]

theorem encodeToString_six (a b c d e f : Nat) :
    encodeToString [a, b, c, d, e, f] =
      [encodeChar ((a * 65536 + b * 256 + c) / 262144 % 64),
       encodeChar ((a * 65536 + b * 256 + c) / 4096 % 64),
       encodeChar ((a * 65536 + b * 256 + c) / 64 % 64),
       encodeChar ((a * 65536 + b * 256 + c) % 64),
       encodeChar ((d * 65536 + e * 256 + f) / 262144 % 64),
       encodeChar ((d * 65536 + e * 256 + f) / 4096 % 64),
       encodeChar ((d * 65536 + e * 256 + f) / 64 % 64),
       encodeChar ((d * 65536 + e * 256 + f) % 64)] := by
  simp [encodeToString]

theorem generateRoomID_eq (rnd : Nat → Nat) :
    generateRoomID rnd = .ok (String.mk (encodeToString (entropyBytes rnd))) := by
  have h8 : (encodeToString (entropyBytes rnd)).length = 8 := by
    rw [entropyBytes_eq, encodeToString_six]; rfl
  have htake : (encodeToString (entropyBytes rnd)).take 8 = encodeToString (entropyBytes rnd) := by
    rw [← h8]; exact List.take_length _
  show sliceTo (String.mk (encodeToString (entropyBytes rnd))) 8 = _
  simp only [sliceTo, h8, Nat.le_refl, if_true, htake]

/-- C11: for every six bytes of entropy, `generateRoomID` returns without
fault the whole URL-safe base64 encoding of those bytes: the slice `[:8]` is
in range and drops nothing, the result has exactly 8 characters, none of
them is the padding `=`, each is one of `A`-`Z`, `a`-`z`, `0`-`9`, `-`, `_`,
and the slice `[:4]` its callers take is in range. -/
theorem generateRoomID_shape (rnd : Nat → Nat) :
    ∃ roomID, generateRoomID rnd = .ok roomID ∧
      roomID = String.mk (encodeToString (entropyBytes rnd)) ∧
      sliceTo (String.mk (encodeToString (entropyBytes rnd))) 8 = .ok roomID ∧
      roomID.data.length = 8 ∧
      '=' ∉ roomID.data ∧
      (∀ ch ∈ roomID.data, urlSafe ch = true) ∧
      sliceTo roomID 4 = .ok (String.mk (roomID.data.take 4)) ∧
      (roomID.data.take 4).length = 4 := by
  have hmem : ∀ ch ∈ encodeToString (entropyBytes rnd), ch ∈ encodeURL := by
    intro ch hch
    rw [entropyBytes_eq, encodeToString_six] at hch
    simp only [List.mem_cons, List.mem_singleton, List.not_mem_nil, or_false] at hch
    rcases hch with h | h | h | h | h | h | h | h <;> rw [h] <;> exact encodeChar_mem _
  have h8 : (encodeToString (entropyBytes rnd)).length = 8 := by
    rw [entropyBytes_eq, encodeToString_six]; rfl
  refine ⟨_, generateRoomID_eq rnd, rfl, generateRoomID_eq rnd, h8, ?_, ?_, ?_, ?_⟩
  · intro hpad
    exact (encodeURL_urlSafe _ (hmem _ hpad)).2 rfl
  · intro ch hch
    exact (encodeURL_urlSafe _ (hmem _ hch)).1
  · simp [sliceTo, h8]
  · simp [h8]

/-- The identifier of the sample entropy, evaluated. -/
theorem generateRoomID_example :
    (generateRoomID sampleEntropy).toOption = some "BSpPdJm-" := by
  decide

/-! ## C17: the identifier determines the random bytes -/

theorem decodeChar_encodeChar : ∀ i, i < 64 → decodeChar (encodeChar i) = i := by decide

theorem encodeChar_inj (i j : Nat) (h : encodeChar (i % 64) = encodeChar (j % 64)) :
    i % 64 = j % 64 := by
  have hi := decodeChar_encodeChar (i % 64) (Nat.mod_lt _ (by decide))
  have hj := decodeChar_encodeChar (j % 64) (Nat.mod_lt _ (by decide))
  rw [← hi, ← hj, h]

theorem sextets_inj (a b c a' b' c' : Nat) (ha : a < 256) (hb : b < 256) (hc : c < 256)
    (ha' : a' < 256) (hb' : b' < 256) (hc' : c' < 256)
    (h1 : (a * 65536 + b * 256 + c) / 262144 % 64 = (a' * 65536 + b' * 256 + c') / 262144 % 64)
    (h2 : (a * 65536 + b * 256 + c) / 4096 % 64 = (a' * 65536 + b' * 256 + c') / 4096 % 64)
    (h3 : (a * 65536 + b * 256 + c) / 64 % 64 = (a' * 65536 + b' * 256 + c') / 64 % 64)
    (h4 : (a * 65536 + b * 256 + c) % 64 = (a' * 65536 + b' * 256 + c') % 64) :
    a = a' ∧ b = b' ∧ c = c' := by
  omega

/-- The encoding of six bytes determines them. -/
theorem encodeToString_inj (rnd1 rnd2 : Nat → Nat)
    (h : encodeToString (entropyBytes rnd1) = encodeToString (entropyBytes rnd2)) :
    entropyBytes rnd1 = entropyBytes rnd2 := by
  rw [entropyBytes_eq, entropyBytes_eq, encodeToString_six, encodeToString_six] at h
  simp only [List.cons.injEq, and_true] at h
  obtain ⟨h1, h2, h3, h4, h5, h6, h7, h8⟩ := h
  have m : ∀ i, rnd1 i % 256 < 256 := fun i => Nat.mod_lt _ (by decide)
  have m' : ∀ i, rnd2 i % 256 < 256 := fun i => Nat.mod_lt _ (by decide)
  obtain ⟨e0, e1, e2⟩ := sextets_inj _ _ _ _ _ _ (m 0) (m 1) (m 2) (m' 0) (m' 1) (m' 2)
    (encodeChar_inj _ _ h1) (encodeChar_inj _ _ h2) (encodeChar_inj _ _ h3)
    (by
      have := encodeChar_inj _ _ h4
      simpa using this)
  obtain ⟨e3, e4, e5⟩ := sextets_inj _ _ _ _ _ _ (m 3) (m 4) (m 5) (m' 3) (m' 4) (m' 5)
    (encodeChar_inj _ _ h5) (encodeChar_inj _ _ h6) (encodeChar_inj _ _ h7)
    (by
      have := encodeChar_inj _ _ h8
      simpa using this)
  rw [entropyBytes_eq, entropyBytes_eq, e0, e1, e2, e3, e4, e5]

theorem createRoomHandler_store (m : Registry) (r : CreateRequest) (rnd : Nat → Nat)
    (now : Int) (hpost : r.Method = "POST") (hv : r.videoUrl ≠ "") (hu : r.username ≠ "") :
    createRoomHandler m r rnd now = .ok
      (m.store (String.mk (encodeToString (entropyBytes rnd)))
        (createdRoom r (String.mk (encodeToString (entropyBytes rnd))) now),
       Response.redirect ("/room/" ++ String.mk (encodeToString (entropyBytes rnd)) ++
         "?username=" ++ r.username) 303) := by
  have h8 : (encodeToString (entropyBytes rnd)).length = 8 := by
    rw [entropyBytes_eq, encodeToString_six]; rfl
  by_cases hname : r.roomName = ""
  · simp [createRoomHandler, hpost, hv, hu, generateRoomID_eq, hname, sliceTo_four _ h8,
      createdRoom]
  · simp [createRoomHandler, hpost, hv, hu, generateRoomID_eq, hname, createdRoom]

/-- C17: for every two draws of six random bytes, `generateRoomID` returns
the same identifier exactly when the bytes are the same (the eight kept
characters are the whole encoding).  Hence, for two well-formed create
requests handled one after the other: when the bytes differ the room of
the first request is still found under its identifier, and when they are
the same the second room replaces the first under the shared identifier. -/
theorem room_ids_collide_only_on_equal_bytes (m : Registry) (r1 r2 : CreateRequest)
    (rnd1 rnd2 : Nat → Nat) (now1 now2 : Int)
    (hpost1 : r1.Method = "POST") (hv1 : r1.videoUrl ≠ "") (hu1 : r1.username ≠ "")
    (hpost2 : r2.Method = "POST") (hv2 : r2.videoUrl ≠ "") (hu2 : r2.username ≠ "") :
    ∃ id1 id2 m1 m2 resp1 resp2,
      generateRoomID rnd1 = .ok id1 ∧ generateRoomID rnd2 = .ok id2 ∧
      createRoomHandler m r1 rnd1 now1 = .ok (m1, resp1) ∧
      createRoomHandler m1 r2 rnd2 now2 = .ok (m2, resp2) ∧
      (id1 = id2 ↔ entropyBytes rnd1 = entropyBytes rnd2) ∧
      m1.lookup id1 = some (createdRoom r1 id1 now1) ∧
      m2.lookup id2 = some (createdRoom r2 id2 now2) ∧
      (entropyBytes rnd1 ≠ entropyBytes rnd2 →
        m2.lookup id1 = some (createdRoom r1 id1 now1)) ∧
      (entropyBytes rnd1 = entropyBytes rnd2 →
        m2.lookup id1 = some (createdRoom r2 id1 now2)) := by
  have hiff : String.mk (encodeToString (entropyBytes rnd1)) =
      String.mk (encodeToString (entropyBytes rnd2)) ↔
      entropyBytes rnd1 = entropyBytes rnd2 := by
    constructor
    · intro h
      exact encodeToString_inj rnd1 rnd2 (congrArg String.data h)
    · intro h
      rw [h]
  refine ⟨_, _, _, _, _, _, generateRoomID_eq rnd1, generateRoomID_eq rnd2,
    createRoomHandler_store m r1 rnd1 now1 hpost1 hv1 hu1,
    createRoomHandler_store _ r2 rnd2 now2 hpost2 hv2 hu2, hiff,
    lookup_store_same _ _ _, lookup_store_same _ _ _, ?_, ?_⟩
  · intro hne
    rw [lookup_store_other _ _ _ _ (fun h => hne (hiff.mp h))]
    exact lookup_store_same _ _ _
  · intro heq
    rw [heq]
    exact lookup_store_same _ _ _

/-- The witness of C17: `aliceCreates` and `bobCreates` on the registry
`oneRoom`, with entropy that differs in the last byte. -/
theorem room_ids_collide_only_on_equal_bytes_witness :
    ∃ id1 id2 m1 m2 resp1 resp2,
      generateRoomID sampleEntropy = .ok id1 ∧ generateRoomID otherEntropy = .ok id2 ∧
      createRoomHandler oneRoom aliceCreates sampleEntropy 1 = .ok (m1, resp1) ∧
      createRoomHandler m1 bobCreates otherEntropy 2 = .ok (m2, resp2) ∧
      (id1 = id2 ↔ entropyBytes sampleEntropy = entropyBytes otherEntropy) ∧
      m1.lookup id1 = some (createdRoom aliceCreates id1 1) ∧
      m2.lookup id2 = some (createdRoom bobCreates id2 2) ∧
      (entropyBytes sampleEntropy ≠ entropyBytes otherEntropy →
        m2.lookup id1 = some (createdRoom aliceCreates id1 1)) ∧
      (entropyBytes sampleEntropy = entropyBytes otherEntropy →
        m2.lookup id1 = some (createdRoom bobCreates id1 2)) :=
  room_ids_collide_only_on_equal_bytes oneRoom aliceCreates bobCreates sampleEntropy
    otherEntropy 1 2 (by decide) (by decide) (by decide) (by decide) (by decide) (by decide)

/-- The two draws of C17's witness, evaluated: the bytes differ in the last
place and so do the identifiers; a repeated draw overwrites. -/
theorem collision_example :
    (generateRoomID sampleEntropy).toOption = some "BSpPdJm-" ∧
    (generateRoomID otherEntropy).toOption = some "BSpPdJm_" ∧
    ((createRoomHandler oneRoom aliceCreates sampleEntropy 1).toOption.bind
        (fun x => (createRoomHandler x.1 bobCreates sampleEntropy 2).toOption.map
          (fun y => (y.1.lookup "BSpPdJm-").map (fun room => room.Owner))))
      = some (some "Bob") := by
  decide

/-! ## C13: the heartbeat interval -/

/-- C13: `PingPeriod = (PongWait * 9) / 10` is exactly 54 seconds: the
product 540 s fits an `int64` and is divisible by 10, the result is positive
and strictly less than `PongWait` = 60 s, so the first liveness probe of a
send loop precedes the read deadline set at the same instant. -/
theorem pingPeriod_lt_pongWait :
    PongWait = 60 * Second ∧ PongWait * 9 < 2 ^ 63 ∧ (PongWait * 9) % 10 = 0 ∧
    PingPeriod = 54 * Second ∧ 0 < PingPeriod ∧ PingPeriod < PongWait ∧
    ∀ now : Int, firstPing now < readDeadline now := by
  refine ⟨rfl, by decide, by decide, by decide, by decide, by decide, ?_⟩
  intro now
  have h : PingPeriod < PongWait := by decide
  simp only [firstPing, readDeadline]
  omega

/-! ## C12: a frame that does not decode -/

theorem readPump_malformed {β : Type} (unmarshal : β → Option (Message δ)) (c : Ptr)
    (h : Hub δ) (frame : β) (now : Int) (rest : List (ReadResult β × Int))
    (hbad : unmarshal frame = none) :
    readPump unmarshal c h ((ReadResult.message frame, now) :: rest) =
      readPump unmarshal c h rest := by
  simp only [readPump, hbad]

/-- C12: for every hub state, connection `c` and inbound frame that
`json.Unmarshal` rejects, `readPump` drops the frame and goes on with the
next read in the same hub state; a run of reads in which every frame is
rejected returns without fault the hub state it started from, so the
membership set (the sender included) and every outbound queue are as before
and no queue was closed. -/
theorem malformed_frame_dropped {β : Type} (unmarshal : β → Option (Message δ)) (c : Ptr)
    (h : Hub δ) (frame : β) (now : Int) (hbad : unmarshal frame = none) :
    (∀ rest : List (ReadResult β × Int),
      readPump unmarshal c h ((ReadResult.message frame, now) :: rest) =
        readPump unmarshal c h rest) ∧
    readPump unmarshal c h [(ReadResult.message frame, now)] = .ok h ∧
    (∀ frames : List (ReadResult β × Int),
      (∀ x ∈ frames, ∃ f, x.1 = ReadResult.message f ∧ unmarshal f = none) →
      readPump unmarshal c h frames = .ok h) := by
  refine ⟨fun rest => readPump_malformed unmarshal c h frame now rest hbad, ?_, ?_⟩
  · rw [readPump_malformed unmarshal c h frame now [] hbad]
    rfl
  · intro frames
    induction frames with
    | nil => intro _; rfl
    | cons x frames ih =>
      intro hall
      obtain ⟨r, t⟩ := x
      obtain ⟨f, hf, hnone⟩ := hall (r, t) (List.mem_cons_self _ _)
      simp only at hf
      subst hf
      rw [readPump_malformed unmarshal c h f t frames hnone]
      exact ih (fun y hy => hall y (List.mem_cons_of_mem _ hy))

/-- The witness of C12: Alice's connection in `aliceBob` receives the frame
"<html>", which the sample decoder rejects. -/
theorem malformed_frame_dropped_witness :
    (∀ rest : List (ReadResult String × Int),
      readPump kindDecoder 0 aliceBob ((ReadResult.message "<html>", 5) :: rest) =
        readPump kindDecoder 0 aliceBob rest) ∧
    readPump kindDecoder 0 aliceBob [(ReadResult.message "<html>", 5)] = .ok aliceBob ∧
    (∀ frames : List (ReadResult String × Int),
      (∀ x ∈ frames, ∃ f, x.1 = ReadResult.message f ∧ kindDecoder f = none) →
      readPump kindDecoder 0 aliceBob frames = .ok aliceBob) :=
  malformed_frame_dropped kindDecoder 0 aliceBob "<html>" 5 (by decide)

/-- A receive loop, evaluated: between two chat frames a frame that does not
decode changes nothing, and the read error at the end detaches Alice. -/
theorem readPump_example :
    queueOf (readPump kindDecoder 0 aliceBob
        [(ReadResult.message "chat", 1), (ReadResult.message "<html>", 2),
         (ReadResult.message "chat", 3)]) 1
      = some { buf := [{ Typ := "chat", User := "Alice", Data := Data.absent, Time := 1 },
                       { Typ := "chat", User := "Alice", Data := Data.absent, Time := 3 }],
               cap := sendCap, closed := false } ∧
    membersOf (readPump kindDecoder 0 aliceBob
        [(ReadResult.message "chat", 1), (ReadResult.message "<html>", 2),
         (ReadResult.err, 3)]) = some [1] := by
  decide

/-! ## C16: `generateVideoEmbed` returns -/

theorem splitGo_length_pos (sep : Bytes) :
    ∀ (s : Bytes) (skip : Nat) (cur : Bytes), 1 ≤ (splitGo sep skip cur s).length := by
  intro s
  induction s with
  | nil => intro skip cur; simp [splitGo]
  | cons a s ih =>
    intro skip cur
    cases skip with
    | zero =>
      simp only [splitGo]
      split_ifs
      · simp
      · exact ih 0 (a :: cur)
    | succ k =>
      simp only [splitGo]
      exact ih k cur

/-- A string that contains a non-empty separator splits into at least two
parts. -/
theorem splitGo_two_parts (sep : Bytes) (hsep : sep ≠ []) :
    ∀ (s : Bytes) (cur : Bytes), Contains s sep = true → 2 ≤ (splitGo sep 0 cur s).length := by
  intro s
  induction s with
  | nil =>
    intro cur hc
    simp only [Contains, List.isEmpty_iff] at hc
    exact absurd hc hsep
  | cons a s ih =>
    intro cur hc
    simp only [splitGo]
    by_cases hp : sep.isPrefixOf (a :: s) = true
    · simp only [hp, if_true, List.length_cons]
      exact Nat.succ_le_succ (splitGo_length_pos sep s _ _)
    · simp only [hp, if_false, Bool.false_eq_true]
      apply ih
      simpa [Contains, hp] using hc

theorem indexAt_one_of_contains (s sep : Bytes) (hsep : sep ≠ []) (hc : Contains s sep = true) :
    ∃ part, indexAt (Split s sep) 1 = .ok part := by
  have hlen := splitGo_two_parts sep hsep s [] hc
  have hlt : 1 < (Split s sep).length := hlen
  refine ⟨(Split s sep)[1], ?_⟩
  simp [indexAt, List.getElem?_eq_getElem hlt]

theorem clip11_length (videoID : Bytes) : (clip11 videoID).length ≤ 11 := by
  unfold clip11
  split_ifs with h
  · rw [List.length_take]; exact Nat.min_le_left _ _
  · exact Nat.le_of_not_lt h

theorem videoIDOf_ok (videoURL : Bytes) :
    ∃ videoID, videoIDOf videoURL = .ok videoID ∧ videoID.length ≤ 11 := by
  unfold videoIDOf
  by_cases h1 : Contains videoURL (ascii "v=") = true
  · obtain ⟨part, hpart⟩ := indexAt_one_of_contains videoURL (ascii "v=") (by decide) h1
    exact ⟨clip11 part, by simp [h1, hpart], clip11_length part⟩
  · by_cases h2 : Contains videoURL (ascii "youtu.be/") = true
    · obtain ⟨part, hpart⟩ := indexAt_one_of_contains videoURL (ascii "youtu.be/")
        (by decide) h2
      exact ⟨clip11 part, by simp [h1, h2, hpart], clip11_length part⟩
    · exact ⟨[], by simp [h1, h2], by simp⟩

/-- C16: for every URL, `generateVideoEmbed` returns without fault.  Each
index `[1]` is taken on a split that has at least two parts, because the URL
contains the separator; the extracted video id has at most 11 bytes; an
embed is emitted only for a non-empty id, and when the id is empty (no
"v=" and no "youtu.be/", or nothing after the first "v=") the result is
that of the direct-file and external-link branches. -/
theorem generateVideoEmbed_total (videoURL : Bytes) :
    ∃ e videoID, generateVideoEmbed videoURL = .ok e ∧
      videoIDOf videoURL = .ok videoID ∧ videoID.length ≤ 11 ∧
      (Contains videoURL (ascii "v=") = true →
        2 ≤ (Split videoURL (ascii "v=")).length ∧
        ∃ part, indexAt (Split videoURL (ascii "v=")) 1 = .ok part) ∧
      (Contains videoURL (ascii "youtu.be/") = true →
        2 ≤ (Split videoURL (ascii "youtu.be/")).length ∧
        ∃ part, indexAt (Split videoURL (ascii "youtu.be/")) 1 = .ok part) ∧
      (Contains videoURL (ascii "v=") = false → Contains videoURL (ascii "youtu.be/") = false →
        videoID = []) ∧
      (∀ id, e = Embed.youtube id → id = videoID ∧ id ≠ [] ∧ id.length ≤ 11) ∧
      (videoID = [] → e = directOrExternal videoURL) ∧
      (e = Embed.youtube videoID ∨ e = directOrExternal videoURL) ∧
      (generateVideoEmbed (ascii "https://www.youtube.com/playlist")).toOption
        = some (Embed.external (ascii "https://www.youtube.com/playlist")) ∧
      (generateVideoEmbed (ascii "https://www.youtube.com/watch?v=")).toOption
        = some (Embed.external (ascii "https://www.youtube.com/watch?v=")) ∧
      (generateVideoEmbed (ascii "https://www.youtube.com/watch?v=dQw4w9WgXcQ&t=42")).toOption
        = some (Embed.youtube (ascii "dQw4w9WgXcQ")) := by
  obtain ⟨videoID, hid, hlen⟩ := videoIDOf_ok videoURL
  have hdir : ∀ u : Bytes, (∀ id, directOrExternal u ≠ Embed.youtube id) := by
    intro u id
    unfold directOrExternal
    split_ifs <;> exact fun h => Embed.noConfusion h
  have hempty : Contains videoURL (ascii "v=") = false →
      Contains videoURL (ascii "youtu.be/") = false → videoID = [] := by
    intro h1 h2
    have : videoIDOf videoURL = .ok [] := by simp [videoIDOf, h1, h2]
    rw [hid] at this
    exact Except.ok.inj this
  have hsplit1 : Contains videoURL (ascii "v=") = true →
      2 ≤ (Split videoURL (ascii "v=")).length ∧
      ∃ part, indexAt (Split videoURL (ascii "v=")) 1 = .ok part := fun hc =>
    ⟨splitGo_two_parts _ (by decide) videoURL [] hc,
      indexAt_one_of_contains videoURL _ (by decide) hc⟩
  have hsplit2 : Contains videoURL (ascii "youtu.be/") = true →
      2 ≤ (Split videoURL (ascii "youtu.be/")).length ∧
      ∃ part, indexAt (Split videoURL (ascii "youtu.be/")) 1 = .ok part := fun hc =>
    ⟨splitGo_two_parts _ (by decide) videoURL [] hc,
      indexAt_one_of_contains videoURL _ (by decide) hc⟩
  by_cases hyt : (Contains videoURL (ascii "youtube.com") ||
      Contains videoURL (ascii "youtu.be")) = true
  · by_cases hne : videoID = []
    · refine ⟨directOrExternal videoURL, videoID, ?_, hid, hlen, hsplit1, hsplit2, hempty, ?_,
        fun _ => rfl, Or.inr rfl, by decide, by decide, by decide⟩
      · simp [generateVideoEmbed, hyt, hid, hne]
      · intro id h
        exact absurd h (hdir videoURL id)
    · refine ⟨Embed.youtube videoID, videoID, ?_, hid, hlen, hsplit1, hsplit2, hempty, ?_,
        fun h => absurd h hne, Or.inl rfl, by decide, by decide, by decide⟩
      · simp [generateVideoEmbed, hyt, hid, hne]
      · intro id h
        have : id = videoID := (Embed.youtube.inj h).symm
        subst this
        exact ⟨rfl, hne, hlen⟩
  · refine ⟨directOrExternal videoURL, videoID, ?_, hid, hlen, hsplit1, hsplit2, hempty, ?_,
      fun _ => rfl, Or.inr rfl, by decide, by decide, by decide⟩
    · simp [generateVideoEmbed, hyt]
    · intro id h
      exact absurd h (hdir videoURL id)

/-! ## The logged operations compute the same hub states -/

theorem broadcastLoopLogged_forget (c : Ptr) (data : Message δ) :
    ∀ (ps : List Ptr) (h : Hub δ) (tr : List Event),
      forget (broadcastLoopLogged c data ps h tr) = broadcastLoop c data ps h := by
  intro ps
  induction ps with
  | nil => intro h tr; rfl
  | cons p ps ih =>
    intro h tr
    simp only [broadcastLoopLogged, broadcastLoop]
    split_ifs
    · cases hts : (h.heap p).send.trySend data with
      | error e => rfl
      | ok r =>
        cases r with
        | some ch => exact ih _ _
        | none =>
          simp only
          cases hcl : (h.heap p).send.close with
          | error e => rfl
          | ok ch => exact ih _ _
    · exact ih _ _

theorem broadcastMessageLogged_forget (h : Hub δ) (tr : List Event) (c : Ptr)
    (msg : Message δ) :
    forget (broadcastMessageLogged h tr c msg) = broadcastMessage h c msg := by
  have := broadcastLoopLogged_forget c msg h.room.clients h (tr ++ [Event.rlock])
  unfold broadcastMessageLogged broadcastMessage
  cases hl : broadcastLoopLogged c msg h.room.clients h (tr ++ [Event.rlock]) with
  | error e => rw [hl] at this; exact this
  | ok r => rw [hl] at this; exact this

theorem broadcastUsersLogged_forget (h : Hub δ) (tr : List Event) (c : Ptr) (now : Int) :
    forget (broadcastUsersLogged h tr c now) = broadcastUsers h c now :=
  broadcastMessageLogged_forget h _ c _

theorem disconnectLogged_forget (h : Hub δ) (tr : List Event) (c : Ptr) (now : Int) :
    forget (disconnectLogged h tr c now) = disconnect h c now := by
  unfold disconnectLogged disconnect
  split_ifs
  · simp only
    cases hcl : ((h.delete c).heap c).send.close with
    | error e => rfl
    | ok ch => exact broadcastUsersLogged_forget _ _ c now
  · exact broadcastUsersLogged_forget _ _ c now

theorem handleMessageLogged_forget (h : Hub δ) (tr : List Event) (c : Ptr) (msg : Message δ)
    (now : Int) :
    forget (handleMessageLogged h tr c msg now) = handleMessage h c msg now := by
  unfold handleMessageLogged handleMessage
  split_ifs
  · exact broadcastMessageLogged_forget h tr c _
  · exact broadcastMessageLogged_forget h tr c _
  · exact broadcastMessageLogged_forget h tr c _
  · exact broadcastMessageLogged_forget h tr c _
  · exact broadcastMessageLogged_forget h tr c _
  · exact broadcastUsersLogged_forget h tr c now
  · exact disconnectLogged_forget h tr c now
  · rfl

theorem stepLogged_forget (h : Hub δ) (tr : List Event) (op : Op δ) :
    forget (stepLogged h tr op) = step h op := by
  cases op with
  | attach u now => exact broadcastUsersLogged_forget _ _ _ now
  | handleMessage c msg now => exact handleMessageLogged_forget h tr c msg now
  | broadcastMessage c msg => exact broadcastMessageLogged_forget h tr c msg
  | broadcastUsers c now => exact broadcastUsersLogged_forget h tr c now
  | disconnect c now => exact disconnectLogged_forget h tr c now
  | recv p => rfl

theorem runLogged_forget (ops : List (Op δ)) :
    ∀ (h : Hub δ) (tr : List Event), forget (runLogged h tr ops) = run h ops := by
  induction ops with
  | nil => intro h tr; rfl
  | cons op ops ih =>
    intro h tr
    have hs := stepLogged_forget h tr op
    simp only [runLogged, run]
    cases hl : stepLogged h tr op with
    | error e =>
      rw [hl] at hs
      rw [← hs]
      rfl
    | ok r =>
      obtain ⟨h1, tr1⟩ := r
      rw [hl] at hs
      rw [← hs]
      exact ih h1 tr1

/-! ## The log of a broadcast pass -/

theorem broadcastEvents_congr (h1 h : Hub δ) (c : Ptr) (ps : List Ptr)
    (hsame : ∀ q ∈ ps, h1.heap q = h.heap q) :
    broadcastEvents h1 c ps = broadcastEvents h c ps := by
  induction ps with
  | nil => rfl
  | cons p ps ih =>
    simp only [broadcastEvents]
    rw [hsame p (List.mem_cons_self _ _),
      ih (fun q hq => hsame q (List.mem_cons_of_mem _ hq))]

theorem broadcastLoopLogged_log (c : Ptr) (data : Message δ) :
    ∀ (ps : List Ptr) (h : Hub δ) (tr : List Event) (h' : Hub δ) (tr' : List Event),
      ps.Nodup → broadcastLoopLogged c data ps h tr = .ok (h', tr') →
      tr' = tr ++ broadcastEvents h c ps := by
  intro ps
  induction ps with
  | nil =>
    intro h tr h' tr' _ hrun
    simp only [broadcastLoopLogged, Except.ok.injEq, Prod.mk.injEq] at hrun
    simp [broadcastEvents, hrun.2]
  | cons p ps ih =>
    intro h tr h' tr' hnd hrun
    have hpn : p ∉ ps := (List.nodup_cons.mp hnd).1
    have hnd2 : ps.Nodup := (List.nodup_cons.mp hnd).2
    have hother : ∀ (ch : Chan (Message δ)) (q : Ptr), q ∈ ps →
        ((h.setSend p ch).heap q = h.heap q ∧ (((h.setSend p ch).delete p).heap q = h.heap q)) := by
      intro ch q hq
      have hqp : q ≠ p := fun e => hpn (e ▸ hq)
      simp [Hub.setSend, Hub.delete, hqp]
    by_cases hpc : p = c
    · subst hpc
      simp only [broadcastLoopLogged, ne_eq, not_true_eq_false, if_false] at hrun
      rw [ih h tr h' tr' hnd2 hrun]
      simp [broadcastEvents]
    · simp only [broadcastLoopLogged, ne_eq, hpc, not_false_eq_true, if_true] at hrun
      by_cases hclosed : (h.heap p).send.closed = true
      · simp [Chan.trySend, hclosed] at hrun
      · by_cases hroom : (h.heap p).send.buf.length < (h.heap p).send.cap
        · simp only [Chan.trySend, hclosed, Bool.false_eq_true, if_false, hroom, if_true] at hrun
          have hfull : (h.heap p).send.full = false := by
            simp [Chan.full, hroom]
          rw [ih _ _ h' tr' hnd2 hrun,
            broadcastEvents_congr _ h c ps (fun q hq => (hother _ q hq).1)]
          simp [broadcastEvents, hpc, hfull]
        · simp only [Chan.trySend, hclosed, Bool.false_eq_true, if_false, hroom,
            Chan.close] at hrun
          have hfull : (h.heap p).send.full = true := by
            simp [Chan.full, Nat.le_of_not_lt hroom]
          rw [ih _ _ h' tr' hnd2 hrun,
            broadcastEvents_congr _ h c ps (fun q hq => (hother _ q hq).2)]
          simp [broadcastEvents, hpc, hfull]

/-- In a well-formed hub a logged `broadcastMessage` returns the state of
`broadcastResult` and appends `RLock`, the events of the pass and
`RUnlock` to the log. -/
theorem broadcastMessageLogged_ok (h : Hub δ) (tr : List Event) (c : Ptr) (msg : Message δ)
    (hwf : h.WF) :
    broadcastMessageLogged h tr c msg = .ok (broadcastResult h c msg h.room.clients,
      tr ++ [Event.rlock] ++ broadcastEvents h c h.room.clients ++ [Event.runlock]) := by
  have hf := broadcastLoopLogged_forget c msg h.room.clients h (tr ++ [Event.rlock])
  have hok : broadcastLoop c msg h.room.clients h = _ := broadcastMessage_ok h c msg hwf
  unfold broadcastMessageLogged
  cases hl : broadcastLoopLogged c msg h.room.clients h (tr ++ [Event.rlock]) with
  | error e =>
    rw [hl, hok] at hf
    exact absurd hf (by simp [forget])
  | ok r =>
    obtain ⟨h1, tr1⟩ := r
    rw [hl, hok] at hf
    simp only [forget, Except.ok.injEq] at hf
    have hlog := broadcastLoopLogged_log c msg h.room.clients h _ h1 tr1 hwf.1 hl
    simp only [hf, hlog]

theorem count_close_broadcastEvents (h : Hub δ) (c q : Ptr) (ps : List Ptr) (hnd : ps.Nodup) :
    (broadcastEvents h c ps).count (Event.close q) =
      if q ∈ ps ∧ q ≠ c ∧ (h.heap q).send.full = true then 1 else 0 := by
  induction ps with
  | nil => simp [broadcastEvents]
  | cons p ps ih =>
    have hpn : p ∉ ps := (List.nodup_cons.mp hnd).1
    have hnd2 : ps.Nodup := (List.nodup_cons.mp hnd).2
    simp only [broadcastEvents, List.count_append, ih hnd2]
    by_cases hqp : q = p
    · subst hqp
      by_cases hqc : q = c
      · simp [hqc]
      · by_cases hfull : (h.heap q).send.full = true
        · simp [hqc, hfull, hpn, List.count_cons]
        · simp [hqc, hfull, hpn, List.count_cons]
    · have hpq : p ≠ q := fun e => hqp e.symm
      by_cases hpc : p = c
      · have hqc : q ≠ c := hpc ▸ hqp
        simp [hpc, hqc]
      · by_cases hfull : (h.heap p).send.full = true
        · simp [hpc, hfull, hqp, hpq, List.count_cons]
        · simp [hpc, hfull, hqp, hpq, List.count_cons]

/-! ## The ledger of closes is kept by every operation -/

theorem count_insert_broadcastEvents (h : Hub δ) (c q : Ptr) (ps : List Ptr) :
    (broadcastEvents h c ps).count (Event.insert q) = 0 := by
  induction ps with
  | nil => simp [broadcastEvents]
  | cons p ps ih =>
    simp only [broadcastEvents, List.count_append, ih]
    split_ifs <;> simp [List.count_cons]

theorem audit_pad (h : Hub δ) (tr extra : List Event) (ha : Audit h tr)
    (hc : ∀ p, extra.count (Event.close p) = 0) (hi : ∀ p, extra.count (Event.insert p) = 0) :
    Audit h (tr ++ extra) := by
  refine ⟨ha.1, fun p => ?_⟩
  obtain ⟨h1, h2, h3, h4⟩ := ha.2 p
  simp only [List.count_append, hc p, hi p, Nat.add_zero]
  exact ⟨h1, h2, h3, h4⟩

theorem audit_broadcast (h : Hub δ) (tr : List Event) (c : Ptr) (msg : Message δ)
    (ha : Audit h tr) :
    Audit (broadcastResult h c msg h.room.clients) (tr ++ broadcastEvents h c h.room.clients) := by
  obtain ⟨hwf, hled⟩ := ha
  refine ⟨broadcastResult_WF h c msg hwf, fun p => ?_⟩
  obtain ⟨h1, h2, h3, h4⟩ := hled p
  have hcnt := count_close_broadcastEvents h c p h.room.clients hwf.1
  simp only [List.count_append, count_insert_broadcastEvents, Nat.add_zero]
  refine ⟨?_, ?_, ?_, h4⟩
  · intro hp
    obtain ⟨hpm, hk⟩ := (broadcastResult_mem h c p msg).mp hp
    rw [h1 hpm, hcnt]
    rcases hk with hk | hk
    · simp [hk]
    · simp [hk]
  · intro hp hlt
    by_cases hpm : p ∈ h.room.clients
    · have hev : p ≠ c ∧ (h.heap p).send.full = true := by
        constructor
        · intro hpc
          exact hp ((broadcastResult_mem h c p msg).mpr ⟨hpm, Or.inl hpc⟩)
        · cases hf : (h.heap p).send.full with
          | true => rfl
          | false => exact absurd ((broadcastResult_mem h c p msg).mpr ⟨hpm, Or.inr hf⟩) hp
      constructor
      · rw [broadcastResult_heap_receiver h c p msg hpm hev.1, delivered_full _ _ hev.2]
      · rw [h1 hpm, hcnt]
        simp [hpm, hev.1, hev.2]
    · obtain ⟨hcl, hone⟩ := h2 hpm hlt
      constructor
      · rw [broadcastResult_heap_outsider h c p msg hpm]; exact hcl
      · rw [hone, hcnt]
        simp [hpm]
  · intro hge
    have hpm : p ∉ h.room.clients := fun hm => Nat.lt_irrefl _ (Nat.lt_of_lt_of_le (hwf.2 p hm).1 hge)
    rw [h3 hge, hcnt]
    simp [hpm]

theorem audit_detach (h : Hub δ) (tr : List Event) (c : Ptr) (ha : Audit h tr)
    (hc : c ∈ h.room.clients) :
    Audit (detached h c)
      (tr ++ [Event.lock, Event.delete c, Event.close c, Event.unlock]) := by
  obtain ⟨hwf, hled⟩ := ha
  have hclt : c < h.next := (hwf.2 c hc).1
  refine ⟨detached_WF h c hwf, fun p => ?_⟩
  obtain ⟨h1, h2, h3, h4⟩ := hled p
  have hmem : p ∈ (detached h c).room.clients ↔ p ∈ h.room.clients ∧ p ≠ c := by
    rw [detached_clients, List.mem_filter]
    simp
  by_cases hpc : p = c
  · subst hpc
    refine ⟨fun hp => absurd rfl (hmem.mp hp).2, ?_, ?_, ?_⟩
    · intro _ _
      constructor
      · rw [detached_heap]; simp
      · simp [List.count_append, List.count_cons, h1 hc]
    · intro hge
      exact absurd hge (Nat.not_le_of_lt hclt)
    · simpa [List.count_append, List.count_cons] using h4
  · have hcp : c ≠ p := fun e => hpc e.symm
    have hheap : (detached h c).heap p = h.heap p := by
      rw [detached_heap]; simp [hpc]
    refine ⟨?_, ?_, ?_, ?_⟩
    · intro hp
      simp [List.count_append, List.count_cons, hcp, h1 (hmem.mp hp).1]
    · intro hp hlt
      have hpm : p ∉ h.room.clients := fun hm => hp (hmem.mpr ⟨hm, hpc⟩)
      obtain ⟨hcl, hone⟩ := h2 hpm hlt
      rw [hheap]
      exact ⟨hcl, by simp [List.count_append, List.count_cons, hcp, hone]⟩
    · intro hge
      simp [List.count_append, List.count_cons, hcp, h3 hge]
    · simpa [List.count_append, List.count_cons] using h4

theorem audit_register (h : Hub δ) (tr : List Event) (u : String) (ha : Audit h tr) :
    Audit (register h u) (tr ++ [Event.lock, Event.insert h.next, Event.unlock]) := by
  obtain ⟨hwf, hled⟩ := ha
  refine ⟨register_WF h u hwf, fun p => ?_⟩
  obtain ⟨h1, h2, h3, h4⟩ := hled p
  have hcnt : (tr ++ [Event.lock, Event.insert h.next, Event.unlock]).count (Event.close p)
      = tr.count (Event.close p) := by
    simp [List.count_append, List.count_cons]
  rw [hcnt, register_next]
  by_cases hpn : p = h.next
  · subst hpn
    have hz := h3 (Nat.le_refl _)
    have hlt : ¬ h.next < h.next := Nat.lt_irrefl _
    refine ⟨fun _ => hz, ?_, ?_, ?_⟩
    · intro hp
      exact absurd ((register_mem h u _).mpr (Or.inr rfl)) hp
    · intro hge
      exact absurd hge (Nat.not_succ_le_self _)
    · simp only [hlt, if_false] at h4
      simp [List.count_append, List.count_cons, h4]
  · have hnp : h.next ≠ p := fun e => hpn e.symm
    refine ⟨?_, ?_, ?_, ?_⟩
    · intro hp
      rcases (register_mem h u p).mp hp with hm | hm
      · exact h1 hm
      · exact absurd hm hpn
    · intro hp hlt
      have hpm : p ∉ h.room.clients := fun hm => hp ((register_mem h u p).mpr (Or.inl hm))
      have hlt' : p < h.next := Nat.lt_of_le_of_ne (Nat.le_of_lt_succ hlt) hpn
      rw [register_heap]
      simp only [hpn, if_false]
      exact h2 hpm hlt'
    · intro hge
      exact h3 (Nat.le_of_succ_le hge)
    · have hiff : p < h.next + 1 ↔ p < h.next :=
        ⟨fun hlt => Nat.lt_of_le_of_ne (Nat.le_of_lt_succ hlt) hpn, Nat.lt_succ_of_lt⟩
      simp only [List.count_append, List.count_cons, List.count_nil, hiff]
      simpa [hnp] using h4

theorem audit_recv (h : Hub δ) (tr : List Event) (q : Ptr) (ha : Audit h tr) :
    Audit (recv h q) tr := by
  obtain ⟨hwf, hled⟩ := ha
  refine ⟨recv_WF h q hwf, fun p => ?_⟩
  obtain ⟨h1, h2, h3, h4⟩ := hled p
  refine ⟨h1, ?_, h3, h4⟩
  intro hp hlt
  obtain ⟨hcl, hone⟩ := h2 hp hlt
  refine ⟨?_, hone⟩
  by_cases hpq : p = q
  · subst hpq
    simpa [recv, Hub.setSend] using hcl
  · simpa [recv, Hub.setSend, hpq] using hcl

theorem broadcastMessageLogged_audit (h : Hub δ) (tr : List Event) (c : Ptr)
    (msg : Message δ) (ha : Audit h tr) :
    ∃ h' tr', broadcastMessageLogged h tr c msg = .ok (h', tr') ∧ Audit h' tr' := by
  refine ⟨_, _, broadcastMessageLogged_ok h tr c msg ha.1, ?_⟩
  apply audit_pad _ _ _ _ (by intro p; simp [List.count_cons]) (by intro p; simp [List.count_cons])
  apply audit_broadcast
  exact audit_pad _ _ _ ha (by intro p; simp [List.count_cons])
    (by intro p; simp [List.count_cons])

theorem broadcastUsersLogged_audit (h : Hub δ) (tr : List Event) (c : Ptr) (now : Int)
    (ha : Audit h tr) :
    ∃ h' tr', broadcastUsersLogged h tr c now = .ok (h', tr') ∧ Audit h' tr' :=
  broadcastMessageLogged_audit h _ c _
    (audit_pad _ _ _ ha (by intro p; simp [List.count_cons])
      (by intro p; simp [List.count_cons]))

theorem disconnectLogged_audit (h : Hub δ) (tr : List Event) (c : Ptr) (now : Int)
    (ha : Audit h tr) :
    ∃ h' tr', disconnectLogged h tr c now = .ok (h', tr') ∧ Audit h' tr' := by
  by_cases hc : c ∈ h.room.clients
  · have hop : (h.heap c).send.closed = false := (ha.1.2 c hc).2.1
    have hrun : disconnectLogged h tr c now = broadcastUsersLogged (detached h c)
        (tr ++ [Event.lock, Event.delete c, Event.close c, Event.unlock]) c now := by
      simp [disconnectLogged, hc, Chan.close, Hub.delete, hop, detached]
    rw [hrun]
    exact broadcastUsersLogged_audit _ _ c now (audit_detach h tr c ha hc)
  · have hrun : disconnectLogged h tr c now =
        broadcastUsersLogged h (tr ++ [Event.lock, Event.unlock]) c now := by
      simp [disconnectLogged, hc]
    rw [hrun]
    exact broadcastUsersLogged_audit _ _ c now
      (audit_pad _ _ _ ha (by intro p; simp [List.count_cons])
        (by intro p; simp [List.count_cons]))

theorem handleMessageLogged_audit (h : Hub δ) (tr : List Event) (c : Ptr) (msg : Message δ)
    (now : Int) (ha : Audit h tr) :
    ∃ h' tr', handleMessageLogged h tr c msg now = .ok (h', tr') ∧ Audit h' tr' := by
  unfold handleMessageLogged
  split_ifs
  · exact broadcastMessageLogged_audit h tr c _ ha
  · exact broadcastMessageLogged_audit h tr c _ ha
  · exact broadcastMessageLogged_audit h tr c _ ha
  · exact broadcastMessageLogged_audit h tr c _ ha
  · exact broadcastMessageLogged_audit h tr c _ ha
  · exact broadcastUsersLogged_audit h tr c now ha
  · exact disconnectLogged_audit h tr c now ha
  · exact ⟨h, tr, rfl, ha⟩

theorem stepLogged_audit (h : Hub δ) (tr : List Event) (op : Op δ) (ha : Audit h tr) :
    ∃ h' tr', stepLogged h tr op = .ok (h', tr') ∧ Audit h' tr' := by
  cases op with
  | attach u now => exact broadcastUsersLogged_audit _ _ _ now (audit_register h tr u ha)
  | handleMessage c msg now => exact handleMessageLogged_audit h tr c msg now ha
  | broadcastMessage c msg => exact broadcastMessageLogged_audit h tr c msg ha
  | broadcastUsers c now => exact broadcastUsersLogged_audit h tr c now ha
  | disconnect c now => exact disconnectLogged_audit h tr c now ha
  | recv p => exact ⟨_, _, rfl, audit_recv h tr p ha⟩

theorem runLogged_audit (ops : List (Op δ)) :
    ∀ (h : Hub δ) (tr : List Event), Audit h tr →
      ∃ h' tr', runLogged h tr ops = .ok (h', tr') ∧ Audit h' tr' := by
  induction ops with
  | nil => intro h tr ha; exact ⟨h, tr, rfl, ha⟩
  | cons op ops ih =>
    intro h tr ha
    obtain ⟨h1, tr1, hs, ha1⟩ := stepLogged_audit h tr op ha
    obtain ⟨h2, tr2, hr, ha2⟩ := ih h1 tr1 ha1
    exact ⟨h2, tr2, by simp [runLogged, hs, hr], ha2⟩

theorem fresh_audit (r : Room) (dflt : Client δ) : Audit (Hub.fresh r dflt) [] := by
  refine ⟨fresh_WF r dflt, fun p => ?_⟩
  simp [Hub.fresh]

/-! ## C15: the reachable-state invariant -/

/-- C15: every sequential run of attaches, `handleMessage`,
`broadcastMessage`, `broadcastUsers` and `disconnect` calls (by any
connection, with receives of the send loops in between) on a fresh room
returns without fault, so no operation sends on a closed queue or closes a
queue twice.  In the state it reaches every member has an open queue of at
most 256 messages that was never closed, and every connection that was
attached (inserted, once) and is no longer a member has a closed queue that
was closed exactly once; no queue is ever closed more than once. -/
theorem reachable_hub_invariant (r : Room) (dflt : Client δ) (ops : List (Op δ)) :
    ∃ h tr, runLogged (Hub.fresh r dflt) [] ops = .ok (h, tr) ∧
      run (Hub.fresh r dflt) ops = .ok h ∧
      h.room.clients.Nodup ∧
      (∀ p ∈ h.room.clients,
        (h.heap p).send.closed = false ∧ (h.heap p).send.buf.length ≤ 256 ∧
        tr.count (Event.insert p) = 1 ∧ tr.count (Event.close p) = 0) ∧
      (∀ p, tr.count (Event.insert p) = 1 → p ∉ h.room.clients →
        (h.heap p).send.closed = true ∧ tr.count (Event.close p) = 1) ∧
      (∀ p, tr.count (Event.insert p) ≤ 1 ∧ tr.count (Event.close p) ≤ 1 ∧
        tr.count (Event.close p) ≤ tr.count (Event.insert p)) := by
  obtain ⟨h, tr, hrun, hwf, hled⟩ := runLogged_audit ops (Hub.fresh r dflt) [] (fresh_audit r dflt)
  have hplain : run (Hub.fresh r dflt) ops = .ok h := by
    have := runLogged_forget ops (Hub.fresh r dflt) []
    rw [hrun] at this
    exact this.symm
  have hins : ∀ p, tr.count (Event.insert p) = 1 ↔ p < h.next := by
    intro p
    rw [(hled p).2.2.2]
    by_cases hlt : p < h.next
    · simp [hlt]
    · simp [hlt]
  refine ⟨h, tr, hrun, hplain, hwf.1, ?_, ?_, ?_⟩
  · intro p hp
    obtain ⟨hlt, hop, _, hlen⟩ := hwf.2 p hp
    exact ⟨hop, hlen, (hins p).mpr hlt, (hled p).1 hp⟩
  · intro p hone hp
    exact (hled p).2.1 hp ((hins p).mp hone)
  · intro p
    obtain ⟨h1, h2, h3, h4⟩ := hled p
    by_cases hlt : p < h.next
    · have hi : tr.count (Event.insert p) = 1 := (hins p).mpr hlt
      by_cases hp : p ∈ h.room.clients
      · rw [hi, h1 hp]; exact ⟨Nat.le_refl _, Nat.zero_le _, Nat.zero_le _⟩
      · rw [hi, (h2 hp hlt).2]; exact ⟨Nat.le_refl _, Nat.le_refl _, Nat.le_refl _⟩
    · have hge : h.next ≤ p := Nat.le_of_not_lt hlt
      rw [h3 hge, h4]
      simp [hlt]

/-! ## C14: the lock discipline -/

theorem disciplined_shared_broadcastEvents (h : Hub δ) (c : Ptr) (tl : List Event) :
    ∀ ps : List Ptr,
      disciplined LockMode.shared (broadcastEvents h c ps ++ tl) =
        (ps.all (fun p => decide (p = c) || !(h.heap p).send.full) &&
          disciplined LockMode.shared tl) := by
  intro ps
  induction ps with
  | nil => simp [broadcastEvents]
  | cons p ps ih =>
    simp only [broadcastEvents, List.append_assoc, List.all_cons]
    by_cases hpc : p = c
    · simp [hpc, ih]
    · cases hfull : (h.heap p).send.full with
      | true => simp [hpc, disciplined]
      | false => simp [hpc, disciplined, ih]

/-- In a well-formed hub, a `broadcastMessage` call that meets a receiver
whose queue is full deletes it from `room.clients` while the lock is held
in shared mode only. -/
theorem broadcast_eviction_breaks_discipline (h : Hub δ) (c r : Ptr) (msg : Message δ)
    (hwf : h.WF) (hr : r ∈ h.room.clients) (hrc : r ≠ c)
    (hfull : (h.heap r).send.full = true) :
    (logOf (broadcastMessageLogged h [] c msg)).map (disciplined LockMode.free) = some false := by
  rw [broadcastMessageLogged_ok h [] c msg hwf]
  simp only [logOf, Except.toOption, Option.map_some', List.nil_append, List.singleton_append,
    disciplined, Option.some.injEq]
  show disciplined LockMode.shared (broadcastEvents h c h.room.clients ++ [Event.runlock])
    = false
  rw [disciplined_shared_broadcastEvents]
  have : (h.room.clients.all (fun p => decide (p = c) || !(h.heap p).send.full)) = false := by
    rw [List.all_eq_false]
    exact ⟨r, hr, by simp [hrc, hfull]⟩
  rw [this]
  rfl

set_option maxRecDepth 1000000 in
/-- C14, the code at the failing input: in `bobFull` (Bob's queue is full)
a `broadcastMessage` by Alice takes `RLock`, closes Bob's queue and deletes
Bob from `room.clients` before the deferred `RUnlock`: a write to the
connection set under the shared lock.  The same happens at the end of the
run `crowded` from a fresh room, whose log obeys the discipline up to
there.  The writes of `websocketHandler` and of the guarded block of
`disconnect` are made between `Lock` and `Unlock`. -/
theorem broadcast_deletes_under_shared_lock :
    logOf (broadcastMessageLogged bobFull [] 0 filler)
      = some [Event.rlock, Event.close 1, Event.delete 1, Event.runlock] ∧
    disciplined LockMode.free [Event.rlock, Event.close 1, Event.delete 1, Event.runlock]
      = false ∧
    (logOf (runLogged lobby [] crowded)).map (disciplined LockMode.free) = some true ∧
    (logOf (runLogged lobby [] (crowded ++ [Op.handleMessage 0 filler 6]))).map
      (disciplined LockMode.free) = some false ∧
    logOf (attachLogged aliceBob [] "Carol" 3)
      = some [Event.lock, Event.insert 2, Event.unlock, Event.rlock, Event.runlock,
              Event.rlock, Event.send 0, Event.send 1, Event.runlock] ∧
    logOf (disconnectLogged aliceBob [] 1 4)
      = some [Event.lock, Event.delete 1, Event.close 1, Event.unlock, Event.rlock,
              Event.runlock, Event.rlock, Event.send 0, Event.runlock] := by
  decide

end VideoParty
